import Mathlib

/-!
Verification of the doubly-linked list and queue from
`src/data_structure/linked_list/linked_list.rs`, `node.rs` and
`src/data_structure/queue/queue.rs`.

The Rust code manages raw `NonNull` pointers to leaked boxed nodes.  We embed
it shallowly: the "memory" is an association list from addresses (`Nat`) to
nodes, the list state carries `length`, `head`, `tail`, the heap and a fresh
allocation counter.  Dereferencing or freeing an address that is not live in
the heap is undefined behaviour in Rust; the embedding makes such an execution
`stuck`.  A Rust `panic!` (including a debug-mode `u32` underflow of
`self.length -= 1`) is the outcome `panic`.
-/

set_option autoImplicit false

namespace RsCS

universe u

variable {α : Type u}

/-- Model of `Node<T>` from `node.rs`: a value and optional `next` / `prev` links,
here optional heap addresses instead of `NonNull` pointers. -/
structure Node (α : Type u) where
  val : α
  next : Option Nat
  prev : Option Nat
deriving DecidableEq, Repr

/-- The memory holding the leaked boxed nodes: an association list from
addresses to nodes. -/
abbrev Heap (α : Type u) := List (Nat × Node α)

/-- Reading the node stored at address `a`, `none` if `a` is not live. -/
def hlookup : Heap α → Nat → Option (Node α)
  | [], _ => none
  | (b, nd) :: t, a => if b = a then some nd else hlookup t a

/-- Allocating a node at a (fresh) address, as `Box::into_raw` leaking a box. -/
def hinsert (h : Heap α) (a : Nat) (nd : Node α) : Heap α :=
  (a, nd) :: h

/-- Writing through a pointer: update the node at `a` in place; `none`
(undefined behaviour) if `a` is not live. -/
def hupdate : Heap α → Nat → (Node α → Node α) → Option (Heap α)
  | [], _, _ => none
  | (b, nd) :: t, a, f =>
    if b = a then some ((b, f nd) :: t)
    else (hupdate t a f).map (fun t2 => (b, nd) :: t2)

/-- Freeing the node at address `a`, as `Box::from_raw` dropping the box. -/
def herase : Heap α → Nat → Heap α
  | [], _ => []
  | (b, nd) :: t, a => if b = a then herase t a else (b, nd) :: herase t a

/-- The set of live addresses of a heap. -/
def keys (h : Heap α) : List Nat :=
  h.map Prod.fst

/-- Model of `LinkedList<T>` from `linked_list.rs`: length, optional head and tail
pointers; the embedding adds the backing heap and the allocator counter. -/
structure LinkedList (α : Type u) where
  length : Nat
  head : Option Nat
  tail : Option Nat
  heap : Heap α
  fresh : Nat
deriving DecidableEq, Repr

/-- The constructor `LinkedList::new()`. -/
def LinkedList.new : LinkedList α :=
  { length := 0, head := none, tail := none, heap := [], fresh := 0 }

/-- Outcome of running one operation: a normal return with the new list state
and the returned value, a `panic!`, or undefined behaviour (`stuck`). -/
inductive Out (σ : Type u) (β : Type u) where
  | ok : σ → β → Out σ β
  | panic : Out σ β
  | stuck : Out σ β
deriving DecidableEq, Repr

/-- The operation `LinkedList::insert_at_head`. -/
def insert_at_head (l : LinkedList α) (obj : α) : Out (LinkedList α) PUnit :=
  let p := l.fresh
  let node : Node α := { val := obj, next := l.head, prev := none }
  let h1 := hinsert l.heap p node
  match l.head with
  | none =>
      .ok { length := l.length + 1, head := some p, tail := some p,
            heap := h1, fresh := p + 1 } ⟨⟩
  | some hd =>
      match hupdate h1 hd (fun nd => { nd with prev := some p }) with
      | none => .stuck
      | some h2 =>
          .ok { length := l.length + 1, head := some p, tail := l.tail,
                heap := h2, fresh := p + 1 } ⟨⟩

/-- The operation `LinkedList::insert_at_tail`. -/
def insert_at_tail (l : LinkedList α) (obj : α) : Out (LinkedList α) PUnit :=
  let p := l.fresh
  let node : Node α := { val := obj, next := none, prev := l.tail }
  let h1 := hinsert l.heap p node
  match l.tail with
  | none =>
      .ok { length := l.length + 1, head := some p, tail := some p,
            heap := h1, fresh := p + 1 } ⟨⟩
  | some tl =>
      match hupdate h1 tl (fun nd => { nd with next := some p }) with
      | none => .stuck
      | some h2 =>
          .ok { length := l.length + 1, head := l.head, tail := some p,
                heap := h2, fresh := p + 1 } ⟨⟩

/-- The traversal loop `for _ in 0..index { match (*ith_node).next { ... } }`
shared by `insert_at_ith` and `delete_ith`: walk `k` `next`-steps from
address `a`, panicking where the loop hits a missing `next`. -/
def walk (h : Heap α) : Nat → Nat → Out Nat PUnit
  | a, 0 => .ok a ⟨⟩
  | a, k + 1 =>
      match hlookup h a with
      | none => .stuck
      | some nd =>
          match nd.next with
          | none => .panic
          | some nx => walk h nx k

/-- The operation `LinkedList::insert_at_ith`. -/
def insert_at_ith (l : LinkedList α) (index : Nat) (obj : α) :
    Out (LinkedList α) PUnit :=
  if l.length < index then .panic
  else if index = 0 ∨ l.head = none then insert_at_head l obj
  else if l.length = index then insert_at_tail l obj
  else
    match l.head with
    | none => .ok l ⟨⟩
    | some hd =>
        match walk l.heap hd index with
        | .panic => .panic
        | .stuck => .stuck
        | .ok ith _ =>
            match hlookup l.heap ith with
            | none => .stuck
            | some ithnd =>
                match ithnd.prev with
                | none => .ok l ⟨⟩
                | some p =>
                    let naddr := l.fresh
                    let node : Node α :=
                      { val := obj, next := some ith, prev := ithnd.prev }
                    let h1 := hinsert l.heap naddr node
                    match hupdate h1 p (fun nd => { nd with next := some naddr }) with
                    | none => .stuck
                    | some h2 =>
                        match hupdate h2 ith (fun nd => { nd with prev := some naddr }) with
                        | none => .stuck
                        | some h3 =>
                            .ok { l with length := l.length + 1,
                                         heap := h3, fresh := naddr + 1 } ⟨⟩

/-- The operation `LinkedList::delete_head`.  The Rust length update is
`self.length.checked_add_signed(-1).unwrap_or(0)`, i.e. saturating
subtraction, which is exactly `Nat` subtraction. -/
def delete_head (l : LinkedList α) : Out (LinkedList α) (Option α) :=
  if l.length = 0 then .ok l none
  else
    match l.head with
    | none => .ok l none
    | some hd =>
        match hlookup l.heap hd with
        | none => .stuck
        | some old =>
            let h1 := herase l.heap hd
            match old.next with
            | some nx =>
                match hupdate h1 nx (fun nd => { nd with prev := none }) with
                | none => .stuck
                | some h2 =>
                    .ok { length := l.length - 1, head := old.next, tail := l.tail,
                          heap := h2, fresh := l.fresh } (some old.val)
            | none =>
                .ok { length := l.length - 1, head := old.next, tail := none,
                      heap := h1, fresh := l.fresh } (some old.val)

/-- The operation `LinkedList::delete_tail`.  Here the Rust length update is a plain
`self.length -= 1`, which in a debug build panics on `u32` underflow; the
guard models that (it is unreachable from well-formed states). -/
def delete_tail (l : LinkedList α) : Out (LinkedList α) (Option α) :=
  match l.tail with
  | none => .ok l none
  | some tl =>
      match hlookup l.heap tl with
      | none => .stuck
      | some old =>
          let h1 := herase l.heap tl
          match old.prev with
          | some p =>
              match hupdate h1 p (fun nd => { nd with next := none }) with
              | none => .stuck
              | some h2 =>
                  if l.length = 0 then .panic
                  else
                    .ok { length := l.length - 1, head := l.head, tail := old.prev,
                          heap := h2, fresh := l.fresh } (some old.val)
          | none =>
              if l.length = 0 then .panic
              else
                .ok { length := l.length - 1, head := none, tail := old.prev,
                      heap := h1, fresh := l.fresh } (some old.val)

/-- The operation `LinkedList::delete_ith`.  Note that in the splice branch the Rust code
updates the neighbours' links and the length but never `self.tail`. -/
def delete_ith (l : LinkedList α) (index : Nat) : Out (LinkedList α) (Option α) :=
  if l.length < index then .panic
  else if index = 0 ∨ l.head = none then delete_head l
  else if l.length = index then delete_tail l
  else
    match l.head with
    | none => .ok l none
    | some hd =>
        match walk l.heap hd index with
        | .panic => .panic
        | .stuck => .stuck
        | .ok ith _ =>
            match hlookup l.heap ith with
            | none => .stuck
            | some old =>
                let h1 := herase l.heap ith
                let step1 : Option (Heap α) :=
                  match old.prev with
                  | none => some h1
                  | some p => hupdate h1 p (fun nd => { nd with next := old.next })
                match step1 with
                | none => .stuck
                | some h2 =>
                    match old.next with
                    | none =>
                        if l.length = 0 then .panic
                        else .ok { l with length := l.length - 1, heap := h2 }
                               (some old.val)
                    | some nx =>
                        match hupdate h2 nx (fun nd => { nd with prev := old.prev }) with
                        | none => .stuck
                        | some h3 =>
                            if l.length = 0 then .panic
                            else .ok { l with length := l.length - 1, heap := h3 }
                                   (some old.val)

/-- The helper `LinkedList::get_ith_node`, the recursive lookup.  The Rust recursion
terminates because the chain is finite and acyclic; the embedding adds a fuel
argument, and `get` supplies fuel `heap length + 1`, which we prove sufficient
for every state whose chain is well formed.  The outer `Option` is the
stuck/no-stuck distinction, the inner one is the Rust `Option` result. -/
def get_ith_node (h : Heap α) : Nat → Option Nat → Int → Option (Option Nat)
  | 0, _, _ => none
  | _ + 1, none, _ => some none
  | fuel + 1, some a, i =>
      if i = 0 then some (some a)
      else
        match hlookup h a with
        | none => none
        | some nd => get_ith_node h fuel nd.next (i - 1)

/-- The operation `LinkedList::get`: look up the `index`-th node and read its value. -/
def get (l : LinkedList α) (index : Int) : Option (Option α) :=
  match get_ith_node l.heap (l.heap.length + 1) l.head index with
  | none => none
  | some none => some none
  | some (some a) =>
      match hlookup l.heap a with
      | none => none
      | some nd => some (some nd.val)

/-! ## Queue

`queue.rs` wraps `std::collections::LinkedList`, an external dependency; we
embed that sequence as a Lean `List` with the documented `push_back` /
`pop_front` / `front` / `back` / `len` / `is_empty` / `clear` semantics. -/

/-- Model of `Queue<T>` from `queue.rs`. -/
structure Queue (α : Type u) where
  elements : List α
deriving DecidableEq, Repr

/-- The constructor `Queue::new()`. -/
def Queue.new : Queue α := { elements := [] }

/-- The operation `Queue::enqueue`, delegating to `push_back`. -/
def enqueue (q : Queue α) (value : α) : Queue α :=
  { elements := q.elements ++ [value] }

/-- The operation `Queue::dequeue`, delegating to `pop_front`, returning the mutated queue and the
removed front element. -/
def dequeue (q : Queue α) : Queue α × Option α :=
  match q.elements with
  | [] => (q, none)
  | x :: xs => ({ elements := xs }, some x)

/-- The operation `Queue::peek_front`, delegating to `front`. -/
def peek_front (q : Queue α) : Option α :=
  q.elements.head?

/-- The operation `Queue::peek_back`, delegating to `back`. -/
def peek_back (q : Queue α) : Option α :=
  q.elements.getLast?

/-- The operation `Queue::len`. -/
def Queue.len (q : Queue α) : Nat :=
  q.elements.length

/-- The operation `Queue::is_empty`. -/
def Queue.is_empty (q : Queue α) : Bool :=
  q.elements.isEmpty

/-- The operation `Queue::drain`, delegating to `clear`. -/
def drain (q : Queue α) : Queue α :=
  { elements := [] }

/-- A queue request: enqueue a value or dequeue. -/
inductive QOp (α : Type u) where
  | enq : α → QOp α
  | deq : QOp α
deriving DecidableEq, Repr

/-- Run a sequence of queue requests, collecting each dequeue result. -/
def runQ : Queue α → List (QOp α) → Queue α × List (Option α)
  | q, [] => (q, [])
  | q, .enq v :: ops => runQ (enqueue q v) ops
  | q, .deq :: ops =>
      let (q2, r) := dequeue q
      let (q3, rs) := runQ q2 ops
      (q3, r :: rs)

/-- The values enqueued by a request sequence, in request order. -/
def enqs : List (QOp α) → List α
  | [] => []
  | .enq v :: ops => v :: enqs ops
  | .deq :: ops => enqs ops

/-! ## The chain invariant

`Seg h p c d q as` says: starting at cursor `c`, whose first node's `prev`
link must be `p`, the heap `h` holds a doubly-linked segment traversing
exactly the addresses `as`, leaving the cursor at `d` (the `next` of the last
node), with `q` the address of the last node traversed (`p` if none). -/

inductive Seg (h : Heap α) :
    Option Nat → Option Nat → Option Nat → Option Nat →
    List (Nat × Node α) → Prop where
  | nil (p c : Option Nat) : Seg h p c c p []
  | cons {p : Option Nat} {a : Nat} {nd : Node α} {d q : Option Nat}
      {ns : List (Nat × Node α)} :
      hlookup h a = some nd → nd.prev = p →
      Seg h (some a) nd.next d q ns → Seg h p (some a) d q ((a, nd) :: ns)

/-- The addresses of a chain. -/
def addrs (ns : List (Nat × Node α)) : List Nat :=
  ns.map Prod.fst

/-- The values of a chain, in chain order. -/
def vals (ns : List (Nat × Node α)) : List α :=
  ns.map (fun pr => pr.2.val)

/-- Chain form of the partial well-formedness invariant (`Wfp`): the forward
chain from `head` is a doubly-linked segment of `length` distinct live nodes
covering the whole heap; `tail` is `none` exactly on the empty list, points
below the allocation counter, and — whenever it is still a live address —
is the last chain node `q`.  (`tail` may dangle: `delete_ith` can free the
last node without updating it.) -/
def WfpC (l : LinkedList α) (ns : List (Nat × Node α)) (q : Option Nat) : Prop :=
  Seg l.heap none l.head none q ns ∧
    (addrs ns).Nodup ∧
    ns.length = l.length ∧
    (keys l.heap).Perm (addrs ns) ∧
    (∀ a ∈ addrs ns, a < l.fresh) ∧
    (l.tail = none ↔ l.length = 0) ∧
    (∀ t, l.tail = some t → t < l.fresh) ∧
    (∀ t, l.tail = some t → t ∈ keys l.heap → l.tail = q)

/-- The partial well-formedness invariant every reachable state satisfies. -/
def Wfp (l : LinkedList α) : Prop :=
  ∃ ns q, WfpC l ns q

/-- Chain form of full well-formedness: as `WfpC`, but `tail` really is the
last node of the chain (`none` for the empty chain). -/
def WfC (l : LinkedList α) (ns : List (Nat × Node α)) : Prop :=
  Seg l.heap none l.head none l.tail ns ∧
    (addrs ns).Nodup ∧
    ns.length = l.length ∧
    (keys l.heap).Perm (addrs ns) ∧
    (∀ a ∈ addrs ns, a < l.fresh)

/-- Full well-formedness of a list state. -/
def Wf (l : LinkedList α) : Prop :=
  ∃ ns, WfC l ns

/-- States reachable from `LinkedList::new()` by the public operations. -/
inductive Reach : LinkedList α → Prop where
  | empty : Reach LinkedList.new
  | iah {l l' : LinkedList α} {v : α} {u : PUnit} :
      Reach l → insert_at_head l v = .ok l' u → Reach l'
  | iat {l l' : LinkedList α} {v : α} {u : PUnit} :
      Reach l → insert_at_tail l v = .ok l' u → Reach l'
  | iai {l l' : LinkedList α} {i : Nat} {v : α} {u : PUnit} :
      Reach l → insert_at_ith l i v = .ok l' u → Reach l'
  | dh {l l' : LinkedList α} {r : Option α} :
      Reach l → delete_head l = .ok l' r → Reach l'
  | dt {l l' : LinkedList α} {r : Option α} :
      Reach l → delete_tail l = .ok l' r → Reach l'
  | di {l l' : LinkedList α} {i : Nat} {r : Option α} :
      Reach l → delete_ith l i = .ok l' r → Reach l'

/-- Running a sequence of `insert_at_tail` calls, stopping at the first
abnormal outcome. -/
def runInserts : LinkedList α → List α → Out (LinkedList α) PUnit
  | l, [] => .ok l ⟨⟩
  | l, v :: vs =>
      match insert_at_tail l v with
      | .ok l2 _ => runInserts l2 vs
      | .panic => .panic
      | .stuck => .stuck

/-- The state after `insert_at_tail(new(), 1)`: the one-element list `[1]`. -/
def sOne : LinkedList Nat :=
  { length := 1, head := some 0, tail := some 0,
    heap := [(0, ⟨1, none, none⟩)], fresh := 1 }

/-- The state after a further `insert_at_tail 2`: the list `[1, 2]`. -/
def sTwo : LinkedList Nat :=
  { length := 2, head := some 0, tail := some 1,
    heap := [(1, ⟨2, none, some 0⟩), (0, ⟨1, some 1, none⟩)], fresh := 2 }

/-- The state after `delete_ith(1)` on `sTwo`: node 1 has been freed and the
chain is `[1]`, but `tail` still points at the freed address 1. -/
def sBug : LinkedList Nat :=
  { length := 1, head := some 0, tail := some 1,
    heap := [(0, ⟨1, none, none⟩)], fresh := 2 }

/-- The one-element list `[5]` built by `insert_at_tail`. -/
def c2s0 : LinkedList Nat :=
  { length := 1, head := some 0, tail := some 0,
    heap := [(0, ⟨5, none, none⟩)], fresh := 1 }

/-- The state after `insert_at_ith(1, 9)` on `c2s0`: the list `[5, 9]`. -/
def c2s1 : LinkedList Nat :=
  { length := 2, head := some 0, tail := some 1,
    heap := [(1, ⟨9, none, some 0⟩), (0, ⟨5, some 1, none⟩)], fresh := 2 }

/-- The state after `delete_ith(1)` on `c2s1`: length, head and heap agree
with `c2s0` again, but `tail` still holds the freed address 1. -/
def c2s2 : LinkedList Nat :=
  { length := 1, head := some 0, tail := some 1,
    heap := [(0, ⟨5, none, none⟩)], fresh := 2 }

/-- The state after inserting 10, 20, 30 at the tail of a new list. -/
def c6s : LinkedList Nat :=
  { length := 3, head := some 0, tail := some 2,
    heap := [(2, ⟨30, none, some 1⟩), (1, ⟨20, some 2, some 0⟩),
      (0, ⟨10, some 1, none⟩)], fresh := 3 }

/-! ### Heap lemmas -/

theorem hlookup_hinsert (h : Heap α) (a : Nat) (nd : Node α) (b : Nat) :
    hlookup (hinsert h a nd) b = if a = b then some nd else hlookup h b := rfl

theorem hlookup_herase (h : Heap α) (a b : Nat) :
    hlookup (herase h a) b = if b = a then none else hlookup h b := by
  induction h with
  | nil => simp [herase, hlookup]
  | cons pr t ih =>
      obtain ⟨c, nd⟩ := pr
      simp only [herase]
      by_cases hca : c = a
      · rw [if_pos hca]
        subst hca
        rw [ih]
        by_cases hbc : b = c
        · simp [hbc]
        · simp [hlookup, hbc, Ne.symm hbc]
      · rw [if_neg hca]
        by_cases hcb : c = b
        · subst hcb
          simp [hlookup, fun hh => hca hh]
        · simp [hlookup, hcb, ih]

theorem keys_herase (h : Heap α) (a : Nat) (b : Nat) :
    b ∈ keys (herase h a) ↔ b ∈ keys h ∧ b ≠ a := by
  induction h with
  | nil => simp [herase, keys]
  | cons pr t ih =>
      obtain ⟨c, nd⟩ := pr
      simp only [herase]
      by_cases hca : c = a
      · rw [if_pos hca]
        subst hca
        rw [ih]
        simp only [keys, List.map_cons, List.mem_cons]
        constructor
        · rintro ⟨hm, hne⟩
          exact ⟨Or.inr hm, hne⟩
        · rintro ⟨hcm | hm, hne⟩
          · exact absurd hcm hne
          · exact ⟨hm, hne⟩
      · rw [if_neg hca]
        simp only [keys, List.map_cons, List.mem_cons]
        rw [show (List.map Prod.fst (herase t a)) = keys (herase t a) from rfl, ih]
        simp only [keys]
        constructor
        · rintro (hb | ⟨hm, hne⟩)
          · exact ⟨Or.inl hb, by rw [← hb] at hca; exact fun hh => hca hh⟩
          · exact ⟨Or.inr hm, hne⟩
        · rintro ⟨hb | hm, hne⟩
          · exact Or.inl hb
          · exact Or.inr ⟨hm, hne⟩

theorem hupdate_eq_none (h : Heap α) (a : Nat) (f : Node α → Node α) :
    hupdate h a f = none ↔ hlookup h a = none := by
  induction h with
  | nil => simp [hupdate, hlookup]
  | cons pr t ih =>
      obtain ⟨c, nd⟩ := pr
      simp only [hupdate, hlookup]
      by_cases hca : c = a
      · simp [hca]
      · rw [if_neg hca, if_neg hca, ← ih]
        cases hupdate t a f <;> simp

theorem hlookup_hupdate {h h' : Heap α} {a : Nat} {f : Node α → Node α}
    (H : hupdate h a f = some h') (b : Nat) :
    hlookup h' b = if b = a then (hlookup h a).map f else hlookup h b := by
  induction h generalizing h' with
  | nil => simp [hupdate] at H
  | cons pr t ih =>
      obtain ⟨c, nd⟩ := pr
      simp only [hupdate] at H
      by_cases hca : c = a
      · rw [if_pos hca] at H
        subst hca
        rw [Option.some_inj] at H
        subst H
        by_cases hbc : b = c
        · subst hbc
          simp [hlookup]
        · simp [hlookup, hbc, Ne.symm hbc]
      · rw [if_neg hca] at H
        cases ht : hupdate t a f with
        | none => rw [ht] at H; simp at H
        | some t2 =>
            rw [ht] at H
            simp only [Option.map_some', Option.some_inj] at H
            subst H
            by_cases hcb : c = b
            · subst hcb
              simp [hlookup, hca, Ne.symm hca]
            · simp only [hlookup, if_neg hcb, if_neg hca]
              exact ih ht

theorem keys_hupdate {h h' : Heap α} {a : Nat} {f : Node α → Node α}
    (H : hupdate h a f = some h') : keys h' = keys h := by
  induction h generalizing h' with
  | nil => simp [hupdate] at H
  | cons pr t ih =>
      obtain ⟨c, nd⟩ := pr
      simp only [hupdate] at H
      by_cases hca : c = a
      · rw [if_pos hca, Option.some_inj] at H
        subst H
        simp [keys]
      · rw [if_neg hca] at H
        cases ht : hupdate t a f with
        | none => rw [ht] at H; simp at H
        | some t2 =>
            rw [ht] at H
            simp only [Option.map_some', Option.some_inj] at H
            subst H
            simp only [keys, List.map_cons]
            exact congrArg (List.cons c) (ih ht)

theorem hlookup_isSome_iff_mem_keys (h : Heap α) (b : Nat) :
    (hlookup h b).isSome ↔ b ∈ keys h := by
  induction h with
  | nil => simp [hlookup, keys]
  | cons pr t ih =>
      obtain ⟨c, nd⟩ := pr
      by_cases hcb : c = b
      · subst hcb
        simp [hlookup, keys]
      · simp only [hlookup, if_neg hcb, keys, List.map_cons, List.mem_cons]
        rw [ih]
        simp only [keys]
        constructor
        · intro hh; exact Or.inr hh
        · rintro (hh | hh)
          · exact absurd hh.symm hcb
          · exact hh

theorem hlookup_eq_none_iff (h : Heap α) (b : Nat) :
    hlookup h b = none ↔ b ∉ keys h := by
  rw [← hlookup_isSome_iff_mem_keys]
  cases hlookup h b <;> simp

/-! ### Chain segment lemmas -/

theorem seg_frame {h h' : Heap α} {p c d q : Option Nat}
    {ns : List (Nat × Node α)} (hs : Seg h p c d q ns) :
    (∀ pr ∈ ns, hlookup h' pr.1 = hlookup h pr.1) → Seg h' p c d q ns := by
  induction hs with
  | nil p c => intro _; exact Seg.nil p c
  | cons hl hp _ ih =>
      intro hag
      exact Seg.cons (by rw [hag _ (List.mem_cons_self _ _)]; exact hl) hp
        (ih (fun pr hm => hag pr (List.mem_cons_of_mem _ hm)))

theorem seg_append {h : Heap α} {p c d q : Option Nat}
    {ns : List (Nat × Node α)} (h1 : Seg h p c d q ns) :
    ∀ {e r : Option Nat} {ms : List (Nat × Node α)},
      Seg h q d e r ms → Seg h p c e r (ns ++ ms) := by
  induction h1 with
  | nil p c => intro e r ms h2; simpa using h2
  | cons hl hp _ ih => intro e r ms h2; exact Seg.cons hl hp (ih h2)

theorem seg_last {h : Heap α} {p c d q : Option Nat}
    {ns : List (Nat × Node α)} (hs : Seg h p c d q ns) :
    (ns = [] ∧ q = p ∧ d = c) ∨
      ∃ ms pr, ns = ms ++ [pr] ∧ q = some pr.1 := by
  induction hs with
  | nil p c => exact Or.inl ⟨rfl, rfl, rfl⟩
  | cons hl hp _ ih =>
      rcases ih with ⟨hnil, hq, _⟩ | ⟨ms, pr, hns, hq⟩
      · subst hnil
        exact Or.inr ⟨[], _, rfl, by rw [hq]⟩
      · subst hns
        exact Or.inr ⟨_ :: ms, pr, rfl, hq⟩

theorem seg_mem_lookup {h : Heap α} {p c d q : Option Nat}
    {ns : List (Nat × Node α)} (hs : Seg h p c d q ns) :
    ∀ pr ∈ ns, hlookup h pr.1 = some pr.2 := by
  induction hs with
  | nil => intro pr hm; simp at hm
  | cons hl _ _ ih =>
      intro pr hm
      rcases List.mem_cons.mp hm with hh | hh
      · subst hh; exact hl
      · exact ih pr hh

theorem seg_append_inv {h : Heap α} {p c d q : Option Nat}
    {ns ms : List (Nat × Node α)} (hs : Seg h p c d q (ns ++ ms)) :
    ∃ c2 q2, Seg h p c c2 q2 ns ∧ Seg h q2 c2 d q ms := by
  induction ns generalizing p c with
  | nil => exact ⟨c, p, Seg.nil p c, by simpa using hs⟩
  | cons b t ih =>
      obtain ⟨ba, bnd⟩ := b
      cases hs with
      | cons hl hp hrest =>
          obtain ⟨c2, q2, h1, h2⟩ := ih hrest
          exact ⟨c2, q2, Seg.cons hl hp h1, h2⟩

theorem seg_nil_inv {h : Heap α} {p c d q : Option Nat}
    (hs : Seg h p c d q []) : d = c ∧ q = p := by
  cases hs
  exact ⟨rfl, rfl⟩

theorem seg_last_decomp {h : Heap α} {p c d q : Option Nat}
    {ns : List (Nat × Node α)} {pr : Nat × Node α}
    (hs : Seg h p c d q (ns ++ [pr])) :
    ∃ q0, Seg h p c (some pr.1) q0 ns ∧ hlookup h pr.1 = some pr.2 ∧
      pr.2.prev = q0 ∧ pr.2.next = d ∧ q = some pr.1 := by
  obtain ⟨c2, q2, h1, h2⟩ := seg_append_inv hs
  obtain ⟨pa, pnd⟩ := pr
  cases h2 with
  | cons hl hp hrest =>
      obtain ⟨hd, hq⟩ := seg_nil_inv hrest
      exact ⟨q2, h1, hl, hp, hd.symm, hq⟩

theorem seg_walk {h : Heap α} :
    ∀ (k : Nat) {p c d q : Option Nat} {ns : List (Nat × Node α)},
      Seg h p c d q ns → ∀ (hk : k < ns.length),
      ∃ a0, c = some a0 ∧ walk h a0 k = .ok ns[k].1 ⟨⟩ := by
  intro k
  induction k with
  | zero =>
      intro p c d q ns hs hk
      cases hs with
      | nil => simp at hk
      | cons hl hp hrest => exact ⟨_, rfl, rfl⟩
  | succ k ih =>
      intro p c d q ns hs hk
      cases hs with
      | nil => simp at hk
      | @cons _ aa nd _ _ tt hl hp hrest =>
          have htk : k < tt.length := by
            simpa using Nat.lt_of_succ_lt_succ hk
          obtain ⟨a0, hc0, hw⟩ := ih hrest htk
          refine ⟨aa, rfl, ?_⟩
          rw [walk]
          simp only [hl, hc0]
          simpa using hw

theorem get_in_range {h : Heap α} :
    ∀ (i : Nat) (fuel : Nat) {p c d q : Option Nat} {ns : List (Nat × Node α)},
      Seg h p c d q ns → ∀ (hi : i < ns.length), i < fuel →
      get_ith_node h fuel c (i : Int) = some (some ns[i].1) := by
  intro i
  induction i with
  | zero =>
      intro fuel p c d q ns hs hi hf
      obtain ⟨f, rfl⟩ := Nat.exists_eq_succ_of_ne_zero (Nat.pos_iff_ne_zero.mp hf)
      cases hs with
      | nil => simp at hi
      | cons hl hp hrest => simp [get_ith_node]
  | succ i ih =>
      intro fuel p c d q ns hs hi hf
      obtain ⟨f, rfl⟩ := Nat.exists_eq_succ_of_ne_zero
        (Nat.pos_iff_ne_zero.mp (Nat.lt_of_le_of_lt (Nat.zero_le _) hf))
      cases hs with
      | nil => simp at hi
      | @cons _ aa nd _ _ tt hl hp hrest =>
          have hti : i < tt.length := by simpa using Nat.lt_of_succ_lt_succ hi
          have hfi : i < f := Nat.lt_of_succ_lt_succ hf
          have hne : ((i + 1 : Nat) : Int) ≠ 0 := by
            push_cast
            omega
          rw [get_ith_node, if_neg hne]
          simp only [hl]
          have hcast : ((i + 1 : Nat) : Int) - 1 = ((i : Nat) : Int) := by
            push_cast
            ring
          rw [hcast]
          have hih := ih f hrest hti hfi
          rw [hih]
          simp

theorem get_out_range {h : Heap α} :
    ∀ (ns : List (Nat × Node α)) (fuel : Nat) {p c q : Option Nat} (i : Int),
      Seg h p c none q ns → (i < 0 ∨ (ns.length : Int) ≤ i) →
      ns.length < fuel → get_ith_node h fuel c i = some none := by
  intro ns
  induction ns with
  | nil =>
      intro fuel p c q i hs hi hf
      obtain ⟨f, rfl⟩ := Nat.exists_eq_succ_of_ne_zero
        (Nat.pos_iff_ne_zero.mp (Nat.lt_of_le_of_lt (Nat.zero_le _) hf))
      cases hs
      rfl
  | cons b t ih =>
      intro fuel p c q i hs hi hf
      obtain ⟨f, rfl⟩ := Nat.exists_eq_succ_of_ne_zero
        (Nat.pos_iff_ne_zero.mp (Nat.lt_of_le_of_lt (Nat.zero_le _) hf))
      obtain ⟨ba, bnd⟩ := b
      cases hs with
      | cons hl hp hrest =>
          have hne : i ≠ 0 := by
            rcases hi with hi | hi
            · omega
            · simp only [List.length_cons] at hi
              push_cast at hi
              omega
          rw [get_ith_node, if_neg hne]
          simp only [hl]
          refine ih f (i - 1) hrest ?_ (by simpa using Nat.lt_of_succ_lt_succ hf)
          rcases hi with hi | hi
          · left; omega
          · right
            simp only [List.length_cons] at hi
            push_cast at hi ⊢
            omega

/-! ### Well-formedness helpers and the specification of `get` -/

theorem wfpC_heap_len {l : LinkedList α} {ns : List (Nat × Node α)}
    {q : Option Nat} (hw : WfpC l ns q) : l.heap.length = ns.length := by
  obtain ⟨_, _, _, hperm, _⟩ := hw
  have h1 : (keys l.heap).length = (addrs ns).length := hperm.length_eq
  simpa [keys, addrs] using h1

theorem wfC_wfpC {l : LinkedList α} {ns : List (Nat × Node α)}
    (hw : WfC l ns) : WfpC l ns l.tail := by
  obtain ⟨hseg, hnd, hlen, hperm, hfr⟩ := hw
  refine ⟨hseg, hnd, hlen, hperm, hfr, ?_, ?_, fun t _ _ => rfl⟩
  · rcases seg_last hseg with ⟨hnil, hq, _⟩ | ⟨ms, pr, hns, hq⟩
    · subst hnil
      have hl0 : l.length = 0 := by simpa using hlen.symm
      exact ⟨fun _ => hl0, fun _ => hq⟩
    · subst hns
      rw [hq]
      constructor
      · intro hh; exact absurd hh (by simp)
      · intro hh
        rw [← hlen] at hh
        simp at hh
  · intro t ht
    rcases seg_last hseg with ⟨hnil, hq, _⟩ | ⟨ms, pr, hns, hq⟩
    · rw [ht] at hq; simp at hq
    · rw [ht] at hq
      have hpr : pr.1 ∈ addrs ns := by
        subst hns
        simp [addrs]
      have := hfr _ hpr
      rw [Option.some_inj] at hq
      rw [hq]
      exact this

theorem get_in_range_wfpC {l : LinkedList α} {ns : List (Nat × Node α)}
    {q : Option Nat} (hw : WfpC l ns q) (i : Nat) (hi : i < ns.length) :
    get l (i : Int) = some (some ns[i].2.val) := by
  have hhl := wfpC_heap_len hw
  obtain ⟨hseg, _, hlen, _⟩ := hw
  have hfuel : i < l.heap.length + 1 := by omega
  have h1 := get_in_range i (l.heap.length + 1) hseg hi hfuel
  rw [get, h1]
  have h2 := seg_mem_lookup hseg ns[i] (List.getElem_mem hi)
  simp [h2]

theorem get_out_range_wfpC {l : LinkedList α} {ns : List (Nat × Node α)}
    {q : Option Nat} (hw : WfpC l ns q) (i : Int)
    (hi : i < 0 ∨ (l.length : Int) ≤ i) : get l i = some none := by
  have hhl := wfpC_heap_len hw
  obtain ⟨hseg, _, hlen, _⟩ := hw
  have h1 := get_out_range ns (l.heap.length + 1) i hseg
    (by rw [hlen]; exact hi) (by omega)
  rw [get, h1]

/-! ### Run lemmas: closed-form results of each operation branch -/

theorem seg_cons_inv {h : Heap α} {p c d q : Option Nat} {a : Nat}
    {nd : Node α} {ns : List (Nat × Node α)}
    (hs : Seg h p c d q ((a, nd) :: ns)) :
    c = some a ∧ hlookup h a = some nd ∧ nd.prev = p ∧
      Seg h (some a) nd.next d q ns := by
  cases hs with
  | cons hl hp hrest => exact ⟨rfl, hl, hp, hrest⟩

theorem iah_run_none {l : LinkedList α} (v : α) (hhd : l.head = none) :
    insert_at_head l v =
      .ok { length := l.length + 1, head := some l.fresh,
            tail := some l.fresh, heap := (l.fresh, ⟨v, none, none⟩) :: l.heap,
            fresh := l.fresh + 1 } ⟨⟩ := by
  simp [insert_at_head, hhd, hinsert]

theorem iah_run_some {l : LinkedList α} {hd : Nat} {h2 : Heap α} (v : α)
    (hhd : l.head = some hd)
    (hup : hupdate ((l.fresh, (⟨v, some hd, none⟩ : Node α)) :: l.heap) hd
      (fun nd => { nd with prev := some l.fresh }) = some h2) :
    insert_at_head l v =
      .ok { length := l.length + 1, head := some l.fresh,
            tail := l.tail, heap := h2, fresh := l.fresh + 1 } ⟨⟩ := by
  simp [insert_at_head, hhd, hinsert, hup]

theorem iat_run_none {l : LinkedList α} (v : α) (htl : l.tail = none) :
    insert_at_tail l v =
      .ok { length := l.length + 1, head := some l.fresh,
            tail := some l.fresh, heap := (l.fresh, ⟨v, none, none⟩) :: l.heap,
            fresh := l.fresh + 1 } ⟨⟩ := by
  simp [insert_at_tail, htl, hinsert]

theorem iat_run_some {l : LinkedList α} {tl : Nat} {h2 : Heap α} (v : α)
    (htl : l.tail = some tl)
    (hup : hupdate ((l.fresh, (⟨v, none, some tl⟩ : Node α)) :: l.heap) tl
      (fun nd => { nd with next := some l.fresh }) = some h2) :
    insert_at_tail l v =
      .ok { length := l.length + 1, head := l.head,
            tail := some l.fresh, heap := h2, fresh := l.fresh + 1 } ⟨⟩ := by
  simp [insert_at_tail, htl, hinsert, hup]

theorem dh_run_zero {l : LinkedList α} (hlen : l.length = 0) :
    delete_head l = .ok l none := by
  simp [delete_head, hlen]

theorem dh_run_last {l : LinkedList α} {hd : Nat} {old : Node α}
    (hlen : l.length ≠ 0) (hhd : l.head = some hd)
    (hlk : hlookup l.heap hd = some old) (hnx : old.next = none) :
    delete_head l =
      .ok { length := l.length - 1, head := none, tail := none,
            heap := herase l.heap hd, fresh := l.fresh } (some old.val) := by
  simp [delete_head, hlen, hhd, hlk, hnx]

theorem dh_run_step {l : LinkedList α} {hd nx : Nat} {old : Node α}
    {h2 : Heap α} (hlen : l.length ≠ 0) (hhd : l.head = some hd)
    (hlk : hlookup l.heap hd = some old) (hnx : old.next = some nx)
    (hup : hupdate (herase l.heap hd) nx
      (fun nd => { nd with prev := none }) = some h2) :
    delete_head l =
      .ok { length := l.length - 1, head := some nx,
            tail := l.tail, heap := h2, fresh := l.fresh } (some old.val) := by
  simp [delete_head, hlen, hhd, hlk, hnx, hup]

theorem dt_run_none {l : LinkedList α} (htl : l.tail = none) :
    delete_tail l = .ok l none := by
  simp [delete_tail, htl]

theorem dt_run_first {l : LinkedList α} {tl : Nat} {old : Node α}
    (htl : l.tail = some tl) (hlk : hlookup l.heap tl = some old)
    (hpv : old.prev = none) (hlen : l.length ≠ 0) :
    delete_tail l =
      .ok { length := l.length - 1, head := none,
            tail := none, heap := herase l.heap tl, fresh := l.fresh }
        (some old.val) := by
  simp [delete_tail, htl, hlk, hpv, hlen]

theorem dt_run_step {l : LinkedList α} {tl p : Nat} {old : Node α}
    {h2 : Heap α} (htl : l.tail = some tl) (hlk : hlookup l.heap tl = some old)
    (hpv : old.prev = some p)
    (hup : hupdate (herase l.heap tl) p
      (fun nd => { nd with next := none }) = some h2)
    (hlen : l.length ≠ 0) :
    delete_tail l =
      .ok { length := l.length - 1, head := l.head,
            tail := some p, heap := h2, fresh := l.fresh } (some old.val) := by
  simp [delete_tail, htl, hlk, hpv, hup, hlen]

theorem iai_run_zero {l : LinkedList α} {i : Nat} (v : α)
    (hni : ¬ l.length < i) (hz : i = 0 ∨ l.head = none) :
    insert_at_ith l i v = insert_at_head l v := by
  rw [insert_at_ith, if_neg hni, if_pos hz]

theorem iai_run_len {l : LinkedList α} {i : Nat} (v : α)
    (hni : ¬ l.length < i) (hz : ¬ (i = 0 ∨ l.head = none))
    (hlen : l.length = i) :
    insert_at_ith l i v = insert_at_tail l v := by
  rw [insert_at_ith, if_neg hni, if_neg hz, if_pos hlen]

theorem iai_run_mid {l : LinkedList α} {i : Nat} {hd ith p : Nat}
    {ithnd : Node α} {h2 h3 : Heap α} (v : α)
    (hni : ¬ l.length < i) (hz : ¬ (i = 0 ∨ l.head = none))
    (hlen : l.length ≠ i) (hhd : l.head = some hd)
    (hwalk : walk l.heap hd i = .ok ith ⟨⟩)
    (hlk : hlookup l.heap ith = some ithnd) (hpv : ithnd.prev = some p)
    (hup2 : hupdate ((l.fresh, (⟨v, some ith, some p⟩ : Node α)) :: l.heap) p
      (fun nd => { nd with next := some l.fresh }) = some h2)
    (hup3 : hupdate h2 ith
      (fun nd => { nd with prev := some l.fresh }) = some h3) :
    insert_at_ith l i v =
      .ok { l with length := l.length + 1, heap := h3, fresh := l.fresh + 1 }
        ⟨⟩ := by
  rw [insert_at_ith, if_neg hni, if_neg hz, if_neg (fun hh => hlen hh)]
  rw [hhd]
  simp only [hwalk, hlk, hpv, hinsert]
  simp only [hup2, hup3]

theorem di_run_zero {l : LinkedList α} {i : Nat}
    (hni : ¬ l.length < i) (hz : i = 0 ∨ l.head = none) :
    delete_ith l i = delete_head l := by
  rw [delete_ith, if_neg hni, if_pos hz]

theorem di_run_len {l : LinkedList α} {i : Nat}
    (hni : ¬ l.length < i) (hz : ¬ (i = 0 ∨ l.head = none))
    (hlen : l.length = i) :
    delete_ith l i = delete_tail l := by
  rw [delete_ith, if_neg hni, if_neg hz, if_pos hlen]

theorem di_run_mid_last {l : LinkedList α} {i : Nat} {hd ith p : Nat}
    {old : Node α} {h2 : Heap α}
    (hni : ¬ l.length < i) (hz : ¬ (i = 0 ∨ l.head = none))
    (hlen : l.length ≠ i) (hhd : l.head = some hd)
    (hwalk : walk l.heap hd i = .ok ith ⟨⟩)
    (hlk : hlookup l.heap ith = some old) (hpv : old.prev = some p)
    (hnx : old.next = none)
    (hup : hupdate (herase l.heap ith) p
      (fun nd => { nd with next := old.next }) = some h2)
    (hl0 : l.length ≠ 0) :
    delete_ith l i =
      .ok { l with length := l.length - 1, heap := h2 } (some old.val) := by
  rw [delete_ith, if_neg hni, if_neg hz, if_neg (fun hh => hlen hh)]
  rw [hhd]
  rw [hnx] at hup
  simp only [hwalk, hlk, hpv, hnx, hup]
  rw [if_neg hl0]

theorem di_run_mid_step {l : LinkedList α} {i : Nat} {hd ith p nx : Nat}
    {old : Node α} {h2 h3 : Heap α}
    (hni : ¬ l.length < i) (hz : ¬ (i = 0 ∨ l.head = none))
    (hlen : l.length ≠ i) (hhd : l.head = some hd)
    (hwalk : walk l.heap hd i = .ok ith ⟨⟩)
    (hlk : hlookup l.heap ith = some old) (hpv : old.prev = some p)
    (hnx : old.next = some nx)
    (hup2 : hupdate (herase l.heap ith) p
      (fun nd => { nd with next := old.next }) = some h2)
    (hup3 : hupdate h2 nx
      (fun nd => { nd with prev := old.prev }) = some h3)
    (hl0 : l.length ≠ 0) :
    delete_ith l i =
      .ok { l with length := l.length - 1, heap := h3 } (some old.val) := by
  rw [delete_ith, if_neg hni, if_neg hz, if_neg (fun hh => hlen hh)]
  rw [hhd]
  rw [hnx] at hup2
  rw [hpv] at hup3
  simp only [hwalk, hlk, hpv, hnx, hup2, hup3]
  rw [if_neg hl0]

/-! ### Preservation of the invariant by each operation -/

theorem mem_addrs_of_mem {ns : List (Nat × Node α)} {pr : Nat × Node α}
    (hm : pr ∈ ns) : pr.1 ∈ addrs ns :=
  List.mem_map_of_mem Prod.fst hm

theorem addrs_append (ns ms : List (Nat × Node α)) :
    addrs (ns ++ ms) = addrs ns ++ addrs ms :=
  List.map_append _ _ _

theorem vals_append (ns ms : List (Nat × Node α)) :
    vals (ns ++ ms) = vals ns ++ vals ms :=
  List.map_append _ _ _

theorem wfp_new : WfpC (LinkedList.new (α := α)) [] none := by
  refine ⟨Seg.nil none none, ?_, ?_, ?_, ?_, ?_, ?_, ?_⟩ <;>
    simp [LinkedList.new, addrs, keys]

theorem iah_char {l : LinkedList α} {ns : List (Nat × Node α)} {q : Option Nat}
    (hw : WfpC l ns q) (v : α) :
    ∃ l', insert_at_head l v = .ok l' ⟨⟩ ∧ Wfp l' := by
  obtain ⟨hseg, hnd, hlen, hperm, hfr, hiff, htf, htl⟩ := hw
  cases hhd : l.head with
  | none =>
      have hns : ns = [] := by
        cases ns with
        | nil => rfl
        | cons pr t =>
            obtain ⟨pa, pnd⟩ := pr
            obtain ⟨hc, _⟩ := seg_cons_inv hseg
            rw [hhd] at hc
            cases hc
      subst hns
      have hl0 : l.length = 0 := by simpa using hlen.symm
      have hkeys : keys l.heap = [] :=
        List.Perm.eq_nil (by simpa [addrs] using hperm)
      refine ⟨_, iah_run_none v hhd, [(l.fresh, ⟨v, none, none⟩)],
        some l.fresh, ?_, ?_, ?_, ?_, ?_, ?_, ?_, ?_⟩
      · exact Seg.cons (by simp [hlookup]) rfl (Seg.nil (some l.fresh) none)
      · simp [addrs]
      · simp [hl0]
      · have hheap : l.heap = [] := by
          simpa [keys] using hkeys
        simp [keys, hheap, addrs]
      · simp [addrs]
      · simp
      · intro t ht
        have ht2 : l.fresh = t := by simpa using ht
        show t < l.fresh + 1
        omega
      · intro t ht _
        rfl
  | some hd =>
      cases ns with
      | nil =>
          obtain ⟨hd2, _⟩ := seg_nil_inv hseg
          rw [hhd] at hd2
          cases hd2
      | cons pr t =>
          obtain ⟨pa, pnd⟩ := pr
          obtain ⟨hc, hlkpa, hprev, hrest⟩ := seg_cons_inv hseg
          rw [hhd, Option.some_inj] at hc
          subst hc
          have hhdfr : hd < l.fresh :=
            hfr _ (mem_addrs_of_mem (List.mem_cons_self _ _))
          have hlk1 : hlookup ((l.fresh, (⟨v, some hd, none⟩ : Node α)) :: l.heap) hd
              = some pnd := by
            simp only [hlookup, if_neg (by omega : ¬ l.fresh = hd)]
            exact hlkpa
          have hne : hupdate ((l.fresh, (⟨v, some hd, none⟩ : Node α)) :: l.heap) hd
              (fun nd => { nd with prev := some l.fresh }) ≠ none := by
            intro hnone
            rw [hupdate_eq_none] at hnone
            rw [hlk1] at hnone
            cases hnone
          obtain ⟨h2, hup⟩ := Option.ne_none_iff_exists'.mp hne
          have hlook2 := hlookup_hupdate hup
          refine ⟨_, iah_run_some v hhd hup,
            (l.fresh, ⟨v, some hd, none⟩) ::
              (hd, { pnd with prev := some l.fresh }) :: t, q,
            ?_, ?_, ?_, ?_, ?_, ?_, ?_, ?_⟩
          · refine Seg.cons ?_ rfl (Seg.cons ?_ rfl ?_)
            · rw [hlook2 l.fresh, if_neg (by omega : ¬ l.fresh = hd)]
              simp [hlookup]
            · rw [hlook2 hd, if_pos rfl, hlk1]
              rfl
            · refine seg_frame hrest ?_
              intro x hx
              have hx1 : x.1 ≠ hd := by
                intro hh
                have : hd ∉ addrs t := (List.nodup_cons.mp hnd).1
                exact this (hh ▸ mem_addrs_of_mem hx)
              have hx2 : x.1 < l.fresh :=
                hfr _ (mem_addrs_of_mem (List.mem_cons_of_mem _ hx))
              rw [hlook2 x.1, if_neg hx1]
              simp only [hlookup, if_neg (by omega : ¬ l.fresh = x.1)]
          · simp only [addrs, List.map_cons, List.nodup_cons]
            refine ⟨?_, ?_, ?_⟩
            · intro hmem
              simp only [List.mem_cons] at hmem
              rcases hmem with hh | hh
              · omega
              · have : ∀ a ∈ addrs t, a < l.fresh := fun a ha =>
                  hfr a (List.mem_cons_of_mem _ ha)
                have := this _ hh
                omega
            · have : hd ∉ addrs t := (List.nodup_cons.mp hnd).1
              simpa [addrs] using this
            · have := (List.nodup_cons.mp hnd).2
              simpa [addrs] using this
          · simp only [List.length_cons]
            simp only [List.length_cons] at hlen
            omega
          · rw [keys_hupdate hup]
            simp only [keys, List.map_cons, addrs]
            refine List.Perm.cons _ ?_
            simpa [keys, addrs] using hperm
          · intro a ha
            show a < l.fresh + 1
            simp only [addrs, List.map_cons, List.mem_cons] at ha
            rcases ha with rfl | rfl | hh
            · omega
            · omega
            · have := hfr a (by simp [addrs, List.mem_cons_of_mem, hh])
              omega
          · have hlnz : l.length ≠ 0 := by
              simp only [List.length_cons] at hlen
              omega
            constructor
            · intro hh
              exact absurd (hiff.mp hh) hlnz
            · intro hh
              simp at hh
          · intro t0 ht0
            show t0 < l.fresh + 1
            have := htf t0 ht0
            omega
          · intro t0 ht0 hmem
            rw [keys_hupdate hup] at hmem
            simp only [keys, List.map_cons, List.mem_cons] at hmem
            rcases hmem with heq | hmem
            · exact absurd (htf t0 ht0) (by omega)
            · exact htl t0 ht0 (by simpa [keys] using hmem)

theorem iat_core {l : LinkedList α} {ns : List (Nat × Node α)} {q : Option Nat}
    (hw : WfpC l ns q) (hq : l.tail = q) (v : α) :
    ∃ l' ns', insert_at_tail l v = .ok l' ⟨⟩ ∧ WfC l' ns' ∧
      vals ns' = vals ns ++ [v] ∧ l'.length = l.length + 1 := by
  obtain ⟨hseg, hnd, hlen, hperm, hfr, hiff, htf, htl⟩ := hw
  cases htle : l.tail with
  | none =>
      have hns : ns = [] := by
        rcases seg_last hseg with ⟨hnil, _, _⟩ | ⟨ms, pr, hns2, hq2⟩
        · exact hnil
        · rw [← hq, htle] at hq2
          cases hq2
      subst hns
      have hhd : l.head = none := (seg_nil_inv hseg).1.symm
      have hl0 : l.length = 0 := by simpa using hlen.symm
      have hheap : l.heap = [] := by
        have h0 := List.Perm.eq_nil (by simpa [addrs] using hperm)
        simpa [keys] using h0
      refine ⟨_, [(l.fresh, ⟨v, none, none⟩)], iat_run_none v htle,
        ⟨?_, ?_, ?_, ?_, ?_⟩, ?_, ?_⟩
      · exact Seg.cons (by simp [hlookup]) rfl (Seg.nil (some l.fresh) none)
      · simp [addrs]
      · simp [hl0]
      · simp [keys, hheap, addrs]
      · simp [addrs]
      · simp [vals]
      · simp [hl0]
  | some t0 =>
      have hq0 : q = some t0 := by rw [← hq, htle]
      subst hq0
      rcases seg_last hseg with ⟨_, hqq, _⟩ | ⟨ms, pr, hns2, hqq⟩
      · cases hqq
      · subst hns2
        rw [Option.some_inj] at hqq
        obtain ⟨q0, hms, hlkpr, hprev, hnext, _⟩ := seg_last_decomp hseg
        have hprfr : pr.1 < l.fresh :=
          hfr _ (by simp [addrs])
        have ht0pr : t0 = pr.1 := hqq
        subst ht0pr
        have hlk1 : hlookup ((l.fresh, (⟨v, none, some pr.1⟩ : Node α)) :: l.heap)
            pr.1 = some pr.2 := by
          simp only [hlookup, if_neg (by omega : ¬ l.fresh = pr.1)]
          exact hlkpr
        have hne : hupdate ((l.fresh, (⟨v, none, some pr.1⟩ : Node α)) :: l.heap)
            pr.1 (fun nd => { nd with next := some l.fresh }) ≠ none := by
          intro hnone
          rw [hupdate_eq_none] at hnone
          rw [hlk1] at hnone
          cases hnone
        obtain ⟨h2, hup⟩ := Option.ne_none_iff_exists'.mp hne
        have hlook2 := hlookup_hupdate hup
        have hfr2 : ∀ a ∈ addrs (ms ++ [pr]), a < l.fresh := hfr
        refine ⟨_, ms ++ [(pr.1, { pr.2 with next := some l.fresh }),
          (l.fresh, ⟨v, none, some pr.1⟩)], iat_run_some v htle hup,
          ⟨?_, ?_, ?_, ?_, ?_⟩, ?_, ?_⟩
        · refine seg_append (seg_frame hms ?_) (Seg.cons ?_ ?_ (Seg.cons ?_ rfl ?_))
          · intro x hx
            have hx1 : x.1 ≠ pr.1 := by
              intro hh
              have hdisj := List.disjoint_of_nodup_append (by simpa [addrs] using hnd)
              exact hdisj (by simpa [addrs] using mem_addrs_of_mem hx)
                (by simp [addrs, hh])
            have hxmem : x.1 ∈ addrs (ms ++ [pr]) := by
              rw [addrs_append]
              exact List.mem_append_left _ (mem_addrs_of_mem hx)
            have hx2 : x.1 < l.fresh := hfr2 _ hxmem
            rw [hlook2 x.1, if_neg hx1]
            simp only [hlookup, if_neg (by omega : ¬ l.fresh = x.1)]
          · rw [hlook2 pr.1, if_pos rfl, hlk1]
            rfl
          · simpa using hprev
          · rw [hlook2 l.fresh, if_neg (by omega : ¬ l.fresh = pr.1)]
            simp [hlookup]
          · exact Seg.nil (some l.fresh) none
        · have hperm2 : (addrs (ms ++ [(pr.1, { pr.2 with next := some l.fresh }),
              (l.fresh, (⟨v, none, some pr.1⟩ : Node α))])).Perm
              (l.fresh :: addrs (ms ++ [pr])) := by
            simp only [addrs, List.map_append, List.map_cons, List.map_nil]
            rw [show List.map Prod.fst ms ++ [pr.1, l.fresh] =
              (List.map Prod.fst ms ++ [pr.1]) ++ [l.fresh] by simp]
            exact List.perm_append_singleton _ _
          rw [List.Perm.nodup_iff hperm2]
          refine List.Nodup.cons ?_ hnd
          intro hmem
          have := hfr _ hmem
          omega
        · simp only [List.length_append, List.length_cons, List.length_nil]
          simp only [List.length_append, List.length_cons, List.length_nil] at hlen
          omega
        · rw [keys_hupdate hup]
          simp only [keys, List.map_cons]
          have hperm2 : (addrs (ms ++ [(pr.1, { pr.2 with next := some l.fresh }),
              (l.fresh, (⟨v, none, some pr.1⟩ : Node α))])).Perm
              (l.fresh :: addrs (ms ++ [pr])) := by
            simp only [addrs, List.map_append, List.map_cons, List.map_nil]
            rw [show List.map Prod.fst ms ++ [pr.1, l.fresh] =
              (List.map Prod.fst ms ++ [pr.1]) ++ [l.fresh] by simp]
            exact List.perm_append_singleton _ _
          refine List.Perm.trans ?_ hperm2.symm
          exact List.Perm.cons _ (by simpa [keys] using hperm)
        · intro a ha
          show a < l.fresh + 1
          rw [addrs_append] at ha
          rcases List.mem_append.mp ha with hh | hh
          · have hmm : a ∈ addrs (ms ++ [pr]) := by
              rw [addrs_append]
              exact List.mem_append_left _ hh
            have := hfr2 _ hmm
            omega
          · simp only [addrs, List.map_cons, List.map_nil, List.mem_cons] at hh
            rcases hh with rfl | rfl | hh
            · omega
            · omega
            · simp at hh
        · simp [vals, List.map_append]
        · rfl

theorem keys_herase_sublist (h : Heap α) (a : Nat) :
    (keys (herase h a)).Sublist (keys h) := by
  induction h with
  | nil => simp [herase, keys]
  | cons pr t ih =>
      obtain ⟨c, nd⟩ := pr
      simp only [herase]
      by_cases hca : c = a
      · rw [if_pos hca]
        exact ih.cons c
      · rw [if_neg hca]
        exact ih.cons₂ c

theorem dh_char {l : LinkedList α} {ns : List (Nat × Node α)} {q : Option Nat}
    (hw : WfpC l ns q) :
    ∃ l' r, delete_head l = .ok l' r ∧ Wfp l' := by
  obtain ⟨hseg, hnd, hlen, hperm, hfr, hiff, htf, htl⟩ := hw
  by_cases hl0 : l.length = 0
  · exact ⟨l, none, dh_run_zero hl0,
      ns, q, hseg, hnd, hlen, hperm, hfr, hiff, htf, htl⟩
  · cases ns with
    | nil => exact absurd (by simpa using hlen.symm) hl0
    | cons pr t =>
        obtain ⟨hd0, nd0⟩ := pr
        obtain ⟨hc, hlk0, hprev, hrest⟩ := seg_cons_inv hseg
        have hkeysnd : (keys l.heap).Nodup := hperm.nodup_iff.mpr hnd
        cases t with
        | nil =>
            obtain ⟨hnx0, hq0⟩ := seg_nil_inv hrest
            have hkeys1 : keys (herase l.heap hd0) = [] := by
              refine List.eq_nil_iff_forall_not_mem.mpr ?_
              intro x hx
              rw [keys_herase] at hx
              obtain ⟨hx1, hx2⟩ := hx
              have := hperm.mem_iff.mp hx1
              simp only [addrs, List.map_cons, List.map_nil, List.mem_cons,
                List.mem_singleton] at this
              rcases this with rfl | hh
              · exact hx2 rfl
              · simp at hh
            refine ⟨_, _, dh_run_last hl0 hc hlk0 hnx0.symm, [], none,
              Seg.nil none none, ?_, ?_, ?_, ?_, ?_, ?_, ?_⟩
            · simp [addrs]
            · simp only [List.length_cons, List.length_nil] at hlen
              show 0 = l.length - 1
              omega
            · rw [hkeys1]
              simp [addrs]
            · simp [addrs]
            · constructor
              · intro _
                show l.length - 1 = 0
                simp only [List.length_cons, List.length_nil] at hlen
                omega
              · intro _
                rfl
            · intro t0 ht0
              cases ht0
            · intro t0 ht0
              cases ht0
        | cons pr2 t2 =>
            obtain ⟨a2, nd2⟩ := pr2
            obtain ⟨hc2, hlk2, hprev2, hrest2⟩ := seg_cons_inv hrest
            have hne0 : a2 ≠ hd0 := by
              intro hh
              have : hd0 ∉ addrs ((a2, nd2) :: t2) := (List.nodup_cons.mp hnd).1
              exact this (by simp [addrs, hh])
            have hlk1 : hlookup (herase l.heap hd0) a2 = some nd2 := by
              rw [hlookup_herase, if_neg hne0]
              exact hlk2
            have hneu : hupdate (herase l.heap hd0) a2
                (fun nd => { nd with prev := none }) ≠ none := by
              intro hnone
              rw [hupdate_eq_none] at hnone
              rw [hlk1] at hnone
              cases hnone
            obtain ⟨h2, hup⟩ := Option.ne_none_iff_exists'.mp hneu
            have hlook2 := hlookup_hupdate hup
            refine ⟨_, _, dh_run_step hl0 hc hlk0 hc2 hup,
              (a2, { nd2 with prev := none }) :: t2, q,
              ?_, ?_, ?_, ?_, ?_, ?_, ?_, ?_⟩
            · refine Seg.cons ?_ rfl ?_
              · rw [hlook2 a2, if_pos rfl, hlk1]
                rfl
              · refine seg_frame hrest2 ?_
                intro x hx
                have hxa2 : x.1 ≠ a2 := by
                  intro hh
                  have : a2 ∉ addrs t2 :=
                    (List.nodup_cons.mp (List.nodup_cons.mp hnd).2).1
                  exact this (hh ▸ mem_addrs_of_mem hx)
                have hxhd : x.1 ≠ hd0 := by
                  intro hh
                  have : hd0 ∉ addrs ((a2, nd2) :: t2) := (List.nodup_cons.mp hnd).1
                  refine this ?_
                  simp only [addrs, List.map_cons, List.mem_cons]
                  exact Or.inr (hh ▸ mem_addrs_of_mem hx)
                rw [hlook2 x.1, if_neg hxa2, hlookup_herase, if_neg hxhd]
            · exact (List.nodup_cons.mp hnd).2
            · simp only [List.length_cons] at hlen ⊢
              omega
            · rw [keys_hupdate hup]
              have hnd1 : (keys (herase l.heap hd0)).Nodup :=
                hkeysnd.sublist (keys_herase_sublist _ _)
              refine (List.perm_ext_iff_of_nodup hnd1 (List.nodup_cons.mp hnd).2).mpr ?_
              intro x
              rw [keys_herase]
              rw [hperm.mem_iff]
              constructor
              · rintro ⟨hx1, hx2⟩
                simp only [addrs, List.map_cons, List.mem_cons] at hx1 ⊢
                rcases hx1 with rfl | hh
                · exact absurd rfl hx2
                · exact hh
              · intro hx
                refine ⟨?_, ?_⟩
                · simp only [addrs, List.map_cons, List.mem_cons] at hx ⊢
                  exact Or.inr hx
                · intro hh
                  subst hh
                  have : x ∉ addrs ((a2, nd2) :: t2) := (List.nodup_cons.mp hnd).1
                  exact this hx
            · intro a ha
              show a < l.fresh
              exact hfr a (List.mem_cons_of_mem _ ha)
            · have hlnz2 : l.length - 1 ≠ 0 := by
                simp only [List.length_cons] at hlen
                omega
              constructor
              · intro hh
                exact absurd (hiff.mp hh) hl0
              · intro hh
                exact absurd hh hlnz2
            · intro t0 ht0
              exact htf t0 ht0
            · intro t0 ht0 hmem
              rw [keys_hupdate hup] at hmem
              rw [keys_herase] at hmem
              exact htl t0 ht0 hmem.1

theorem nodup_mid_facts {A0 B : List (Nat × Node α)} {p1 e1 : Nat}
    (hnd : (addrs A0 ++ p1 :: e1 :: addrs B).Nodup) :
    p1 ≠ e1 ∧ (∀ x ∈ A0, x.1 ≠ p1 ∧ x.1 ≠ e1) ∧
      (∀ x ∈ B, x.1 ≠ p1 ∧ x.1 ≠ e1) := by
  have hr := hnd.of_append_right
  have hdisj := List.disjoint_of_nodup_append hnd
  have h1 := (List.nodup_cons.mp hr).1
  have h2 := (List.nodup_cons.mp (List.nodup_cons.mp hr).2).1
  refine ⟨?_, ?_, ?_⟩
  · intro hh
    exact h1 (by simp [hh])
  · intro x hx
    have hxm := mem_addrs_of_mem hx
    constructor
    · intro hh
      exact hdisj hxm (by simp [hh])
    · intro hh
      exact hdisj hxm (by simp [hh])
  · intro x hx
    have hxm := mem_addrs_of_mem hx
    constructor
    · intro hh
      subst hh
      exact h1 (List.mem_cons_of_mem _ hxm)
    · intro hh
      subst hh
      exact h2 hxm

theorem perm_mid_insert {A0 B : List Nat} {p1 e1 f : Nat} :
    (A0 ++ p1 :: f :: e1 :: B).Perm (f :: (A0 ++ p1 :: e1 :: B)) := by
  have h : ((A0 ++ [p1]) ++ f :: e1 :: B).Perm
      (f :: ((A0 ++ [p1]) ++ e1 :: B)) := List.perm_middle
  simpa [List.append_assoc] using h

theorem dt_core {l : LinkedList α} {ns : List (Nat × Node α)} {q : Option Nat}
    (hw : WfpC l ns q) (hq : l.tail = q) :
    (ns = [] ∧ delete_tail l = .ok l none) ∨
    ∃ ms pr l', ns = ms ++ [pr] ∧
      delete_tail l = .ok l' (some pr.2.val) ∧
      (∃ ns', WfC l' ns' ∧ vals ns' = vals ms) ∧
      l'.length = l.length - 1 := by
  obtain ⟨hseg, hnd, hlen, hperm, hfr, hiff, htf, htl⟩ := hw
  cases htle : l.tail with
  | none =>
      have hns : ns = [] := by
        rcases seg_last hseg with ⟨hnil, _, _⟩ | ⟨ms, pr, hns2, hq2⟩
        · exact hnil
        · rw [← hq, htle] at hq2
          cases hq2
      exact Or.inl ⟨hns, dt_run_none htle⟩
  | some t0 =>
      have hq0 : q = some t0 := by rw [← hq, htle]
      subst hq0
      rcases seg_last hseg with ⟨_, hqq, _⟩ | ⟨ms, pr, hns2, hqq⟩
      · cases hqq
      · subst hns2
        rw [Option.some_inj] at hqq
        subst hqq
        obtain ⟨q0, hms, hlkpr, hprev, hnext, _⟩ := seg_last_decomp hseg
        have hl0 : l.length ≠ 0 := by
          rw [← hlen]
          simp
        have hkeysnd : (keys l.heap).Nodup := hperm.nodup_iff.mpr hnd
        rcases List.eq_nil_or_concat ms with hms0 | ⟨ms0, pp, hmspp⟩
        · subst hms0
          obtain ⟨hhd, hq00⟩ := seg_nil_inv hms
          subst hq00
          have hkeys1 : keys (herase l.heap pr.1) = [] := by
            refine List.eq_nil_iff_forall_not_mem.mpr ?_
            intro x hx
            rw [keys_herase] at hx
            obtain ⟨hx1, hx2⟩ := hx
            have := hperm.mem_iff.mp hx1
            simp only [List.nil_append, addrs, List.map_cons, List.map_nil,
              List.mem_singleton] at this
            exact hx2 this
          refine Or.inr ⟨[], pr, _, rfl, dt_run_first htle hlkpr hprev hl0,
            ⟨[], ⟨Seg.nil none none, ?_, ?_, ?_, ?_⟩, ?_⟩, ?_⟩
          · simp [addrs]
          · show 0 = l.length - 1
            simp only [List.nil_append, List.length_cons, List.length_nil] at hlen
            omega
          · rw [hkeys1]
            simp [addrs]
          · simp [addrs]
          · simp [vals]
          · rfl
        · rw [List.concat_eq_append] at hmspp
          subst hmspp
          obtain ⟨q00, hms0, hlkpp, hprevpp, hnextpp, hq0pp⟩ := seg_last_decomp hms
          subst hq0pp
          obtain ⟨hppe, hA0f, _⟩ := nodup_mid_facts
            (show (addrs ms0 ++ pp.1 :: pr.1 ::
                addrs ([] : List (Nat × Node α))).Nodup by
              simpa [addrs, List.map_append, List.append_assoc] using hnd)
          have hlk1 : hlookup (herase l.heap pr.1) pp.1 = some pp.2 := by
            rw [hlookup_herase, if_neg hppe]
            exact hlkpp
          have hneu : hupdate (herase l.heap pr.1) pp.1
              (fun nd => { nd with next := none }) ≠ none := by
            intro hnone
            rw [hupdate_eq_none] at hnone
            rw [hlk1] at hnone
            cases hnone
          obtain ⟨h2, hup⟩ := Option.ne_none_iff_exists'.mp hneu
          have hlook2 := hlookup_hupdate hup
          refine Or.inr ⟨ms0 ++ [pp], pr, _, rfl,
            dt_run_step htle hlkpr hprev hup hl0,
            ⟨ms0 ++ [(pp.1, { pp.2 with next := none })],
              ⟨?_, ?_, ?_, ?_, ?_⟩, ?_⟩, ?_⟩
          · refine seg_append (seg_frame hms0 ?_) (Seg.cons ?_ ?_ ?_)
            · intro x hx
              obtain ⟨hx1, hx2⟩ := hA0f x hx
              rw [hlook2 x.1, if_neg hx1, hlookup_herase, if_neg hx2]
            · rw [hlook2 pp.1, if_pos rfl, hlk1]
              rfl
            · simpa using hprevpp
            · exact Seg.nil (some pp.1) none
          · have : (addrs (ms0 ++ [pp])).Nodup := by
              have h0 : (addrs ((ms0 ++ [pp]) ++ [pr])).Nodup := hnd
              rw [addrs_append] at h0
              exact h0.of_append_left
            simpa [addrs, List.map_append] using this
          · simp only [List.length_append, List.length_cons, List.length_nil]
            simp only [List.length_append, List.length_cons, List.length_nil]
              at hlen
            omega
          · rw [keys_hupdate hup]
            have hnd1 : (keys (herase l.heap pr.1)).Nodup :=
              hkeysnd.sublist (keys_herase_sublist _ _)
            have hndA : (addrs (ms0 ++ [(pp.1, { pp.2 with next := none })])).Nodup := by
              have h0 : (addrs ((ms0 ++ [pp]) ++ [pr])).Nodup := hnd
              rw [addrs_append] at h0
              have := h0.of_append_left
              simpa [addrs, List.map_append] using this
            refine (List.perm_ext_iff_of_nodup hnd1 hndA).mpr ?_
            intro x
            rw [keys_herase, hperm.mem_iff]
            have hsplit : addrs ((ms0 ++ [pp]) ++ [pr]) =
                addrs ms0 ++ [pp.1] ++ [pr.1] := by
              simp [addrs, List.map_append]
            constructor
            · rintro ⟨hx1, hx2⟩
              rw [hsplit] at hx1
              simp only [List.mem_append, List.mem_singleton] at hx1
              simp only [addrs, List.map_append, List.map_cons, List.map_nil,
                List.mem_append, List.mem_singleton]
              rcases hx1 with (hh | hh) | hh
              · exact Or.inl hh
              · exact Or.inr (by simp [hh])
              · exact absurd hh hx2
            · intro hx
              simp only [addrs, List.map_append, List.map_cons, List.map_nil,
                List.mem_append, List.mem_singleton] at hx
              have hxor : x ∈ addrs ms0 ∨ x = pp.1 := by
                rcases hx with hh | hh
                · exact Or.inl hh
                · exact Or.inr (by simpa using hh)
              refine ⟨?_, ?_⟩
              · rw [hsplit]
                simp only [List.mem_append, List.mem_singleton]
                rcases hxor with hh | hh
                · exact Or.inl (Or.inl hh)
                · exact Or.inl (Or.inr (by simp [hh]))
              · intro hh
                subst hh
                rcases hxor with hh | hh
                · have hdisj := List.disjoint_of_nodup_append
                    (by simpa [addrs, List.map_append, List.append_assoc]
                      using hnd : (addrs ms0 ++ pp.1 :: pr.1 ::
                        addrs ([] : List (Nat × Node α))).Nodup)
                  exact hdisj hh (by simp)
                · exact hppe hh.symm
          · intro a ha
            show a < l.fresh
            refine hfr a ?_
            have : a ∈ addrs (ms0 ++ [pp]) := by
              simpa [addrs, List.map_append] using ha
            rw [addrs_append]
            exact List.mem_append_left _ this
          · simp [vals, List.map_append]
          · rfl

theorem iai_mid_char {l : LinkedList α} {ns : List (Nat × Node α)}
    {q : Option Nat} {i : Nat} (hw : WfpC l ns q) (v : α)
    (hi1 : 1 ≤ i) (hi2 : i < l.length) :
    ∃ l', insert_at_ith l i v = .ok l' ⟨⟩ ∧ Wfp l' ∧
      l'.length = l.length + 1 := by
  obtain ⟨hseg, hnd, hlen, hperm, hfr, hiff, htf, htl⟩ := hw
  have hilen : i < ns.length := by omega
  have hns2 : ns = ns.take i ++ ns[i] :: ns.drop (i + 1) := by
    conv_lhs => rw [← List.take_append_drop i ns]
    rw [List.drop_eq_getElem_cons hilen]
  obtain ⟨a0, hhd, hwalk⟩ := seg_walk i hseg hilen
  obtain ⟨A, hAdef⟩ : ∃ A, A = ns.take i := ⟨_, rfl⟩
  obtain ⟨e, hedef⟩ : ∃ e, e = ns[i] := ⟨_, rfl⟩
  obtain ⟨B, hBdef⟩ : ∃ B, B = ns.drop (i + 1) := ⟨_, rfl⟩
  rw [← hAdef, ← hedef, ← hBdef] at hns2
  rw [← hedef] at hwalk
  have hAlen : A.length = i := by
    rw [hAdef, List.length_take]
    omega
  rw [hns2] at hseg hnd hlen hperm hfr
  clear hns2 hAdef hedef hBdef hilen
  obtain ⟨c2, q2, hA, hEB⟩ := seg_append_inv hseg
  obtain ⟨ea, end0⟩ := e
  obtain ⟨hc2, hlke, hprve, hrestB⟩ := seg_cons_inv hEB
  rcases List.eq_nil_or_concat A with hA0 | ⟨A0, pp, hApp⟩
  · rw [hA0] at hAlen
    simp at hAlen
    omega
  rw [List.concat_eq_append] at hApp
  subst hApp
  obtain ⟨q0, hA0seg, hlkpp, hprvpp, hnxtpp, hq2pp⟩ := seg_last_decomp hA
  subst hq2pp
  have hndall : (addrs A0 ++ pp.1 :: ea :: addrs B).Nodup := by
    simpa [addrs, List.map_append, List.append_assoc] using hnd
  obtain ⟨hppe, hA0f, hBf⟩ := nodup_mid_facts hndall
  have heafr : ea < l.fresh := by
    refine hfr ea ?_
    simp [addrs, List.map_append]
  have hppfr : pp.1 < l.fresh := by
    refine hfr pp.1 ?_
    simp [addrs, List.map_append]
  -- the two pointer updates succeed
  have hlk1 : hlookup ((l.fresh, (⟨v, some ea, some pp.1⟩ : Node α)) :: l.heap)
      pp.1 = some pp.2 := by
    simp only [hlookup, if_neg (by omega : ¬ l.fresh = pp.1)]
    exact hlkpp
  have hneu2 : hupdate ((l.fresh, (⟨v, some ea, some pp.1⟩ : Node α)) :: l.heap)
      pp.1 (fun nd => { nd with next := some l.fresh }) ≠ none := by
    intro hnone
    rw [hupdate_eq_none] at hnone
    rw [hlk1] at hnone
    cases hnone
  obtain ⟨h2, hup2⟩ := Option.ne_none_iff_exists'.mp hneu2
  have hlook2 := hlookup_hupdate hup2
  have hlk2e : hlookup h2 ea = some end0 := by
    rw [hlook2 ea, if_neg (fun hh => hppe hh.symm)]
    simp only [hlookup, if_neg (by omega : ¬ l.fresh = ea)]
    exact hlke
  have hneu3 : hupdate h2 ea
      (fun nd => { nd with prev := some l.fresh }) ≠ none := by
    intro hnone
    rw [hupdate_eq_none] at hnone
    rw [hlk2e] at hnone
    cases hnone
  obtain ⟨h3, hup3⟩ := Option.ne_none_iff_exists'.mp hneu3
  have hlook3 := hlookup_hupdate hup3
  have hrun := iai_run_mid (l := l) v (by omega)
    (by
      intro hh
      rcases hh with hh | hh
      · omega
      · rw [hh] at hhd; cases hhd)
    (by omega) hhd hwalk hlke (by simpa using hprve) hup2 hup3
  have hmemA0 : ∀ x : Nat × Node α, x ∈ A0 →
      x.1 ∈ addrs (A0 ++ [pp] ++ (ea, end0) :: B) := by
    intro x hx
    rw [addrs_append, addrs_append]
    exact List.mem_append_left _ (List.mem_append_left _ (mem_addrs_of_mem hx))
  have hmemB : ∀ x : Nat × Node α, x ∈ B →
      x.1 ∈ addrs (A0 ++ [pp] ++ (ea, end0) :: B) := by
    intro x hx
    rw [addrs_append]
    exact List.mem_append_right _ (List.mem_cons_of_mem _ (mem_addrs_of_mem hx))
  refine ⟨_, hrun, ⟨A0 ++ (pp.1, { pp.2 with next := some l.fresh }) ::
    (l.fresh, ⟨v, some ea, some pp.1⟩) ::
    (ea, { end0 with prev := some l.fresh }) :: B, q, ?_, ?_, ?_, ?_, ?_,
    ?_, ?_, ?_⟩, rfl⟩
  · -- the new chain
    refine seg_append (seg_frame hA0seg ?_)
      (Seg.cons ?_ ?_ (Seg.cons ?_ rfl (Seg.cons ?_ rfl
        (seg_frame hrestB ?_))))
    · intro x hx
      obtain ⟨hx1, hx2⟩ := hA0f x hx
      have hx3 : x.1 < l.fresh := hfr x.1 (hmemA0 x hx)
      rw [hlook3 x.1, if_neg hx2, hlook2 x.1, if_neg hx1]
      simp only [hlookup, if_neg (by omega : ¬ l.fresh = x.1)]
    · rw [hlook3 pp.1, if_neg hppe, hlook2 pp.1, if_pos rfl, hlk1]
      rfl
    · simpa using hprvpp
    · rw [hlook3 l.fresh, if_neg (by omega : ¬ l.fresh = ea),
        hlook2 l.fresh, if_neg (by omega : ¬ l.fresh = pp.1)]
      simp [hlookup]
    · rw [hlook3 ea, if_pos rfl, hlk2e]
      rfl
    · intro x hx
      obtain ⟨hx1, hx2⟩ := hBf x hx
      have hx3 : x.1 < l.fresh := hfr x.1 (hmemB x hx)
      rw [hlook3 x.1, if_neg hx2, hlook2 x.1, if_neg hx1]
      simp only [hlookup, if_neg (by omega : ¬ l.fresh = x.1)]
  · -- nodup
    have hpm : (addrs (A0 ++ (pp.1, { pp.2 with next := some l.fresh }) ::
        (l.fresh, (⟨v, some ea, some pp.1⟩ : Node α)) ::
        (ea, { end0 with prev := some l.fresh }) :: B)).Perm
        (l.fresh :: (addrs A0 ++ pp.1 :: ea :: addrs B)) := by
      simp only [addrs, List.map_append, List.map_cons]
      exact perm_mid_insert
    rw [List.Perm.nodup_iff hpm]
    refine List.Nodup.cons ?_ hndall
    intro hmem
    have : ∀ x ∈ addrs A0 ++ pp.1 :: ea :: addrs B, x < l.fresh := by
      intro x hx
      refine hfr x ?_
      simpa [addrs, List.map_append] using hx
    have := this _ hmem
    omega
  · -- length
    show _ = l.length + 1
    simp only [List.length_append, List.length_cons, List.length_nil] at hlen ⊢
    omega
  · -- perm of keys
    show (keys h3).Perm _
    rw [keys_hupdate hup3, keys_hupdate hup2]
    simp only [keys, List.map_cons]
    have hpm : (addrs (A0 ++ (pp.1, { pp.2 with next := some l.fresh }) ::
        (l.fresh, (⟨v, some ea, some pp.1⟩ : Node α)) ::
        (ea, { end0 with prev := some l.fresh }) :: B)).Perm
        (l.fresh :: (addrs A0 ++ pp.1 :: ea :: addrs B)) := by
      simp only [addrs, List.map_append, List.map_cons]
      exact perm_mid_insert
    refine List.Perm.trans ?_ hpm.symm
    refine List.Perm.cons _ ?_
    refine List.Perm.trans (by simpa [keys] using hperm) ?_
    simp [addrs, List.map_append]
  · -- fresh bound
    intro a ha
    show a < l.fresh + 1
    have hmem : a = l.fresh ∨ a ∈ addrs A0 ++ pp.1 :: ea :: addrs B := by
      have hsimp : a ∈ addrs A0 ++ pp.1 :: l.fresh :: ea :: addrs B := by
        simpa [addrs, List.map_append] using ha
      simp only [List.mem_append, List.mem_cons] at hsimp ⊢
      tauto
    rcases hmem with rfl | hmem
    · omega
    · have : a < l.fresh := by
        refine hfr a ?_
        simpa [addrs, List.map_append] using hmem
      omega
  · -- tail iff
    constructor
    · intro hh
      have := hiff.mp hh
      omega
    · intro hh
      simp at hh
  · -- tail below fresh
    intro t0 ht0
    show t0 < l.fresh + 1
    have := htf t0 ht0
    omega
  · -- live tail is the last node
    intro t0 ht0 hmem
    show l.tail = q
    rw [keys_hupdate hup3, keys_hupdate hup2] at hmem
    simp only [keys, List.map_cons, List.mem_cons] at hmem
    rcases hmem with heq2 | hmem
    · exact absurd (htf t0 ht0) (by omega)
    · exact htl t0 ht0 (by simpa [keys] using hmem)

theorem di_mid_char {l : LinkedList α} {ns : List (Nat × Node α)}
    {q : Option Nat} {i : Nat} (hw : WfpC l ns q)
    (hi1 : 1 ≤ i) (hi2 : i < l.length) :
    ∃ l' r, delete_ith l i = .ok l' r ∧ Wfp l' ∧
      l'.length = l.length - 1 := by
  obtain ⟨hseg, hnd, hlen, hperm, hfr, hiff, htf, htl⟩ := hw
  have hilen : i < ns.length := by omega
  have hns2 : ns = ns.take i ++ ns[i] :: ns.drop (i + 1) := by
    conv_lhs => rw [← List.take_append_drop i ns]
    rw [List.drop_eq_getElem_cons hilen]
  obtain ⟨a0, hhd, hwalk⟩ := seg_walk i hseg hilen
  obtain ⟨A, hAdef⟩ : ∃ A, A = ns.take i := ⟨_, rfl⟩
  obtain ⟨e, hedef⟩ : ∃ e, e = ns[i] := ⟨_, rfl⟩
  obtain ⟨B, hBdef⟩ : ∃ B, B = ns.drop (i + 1) := ⟨_, rfl⟩
  rw [← hAdef, ← hedef, ← hBdef] at hns2
  rw [← hedef] at hwalk
  have hAlen : A.length = i := by
    rw [hAdef, List.length_take]
    omega
  rw [hns2] at hseg hnd hlen hperm hfr
  clear hns2 hAdef hedef hBdef hilen
  obtain ⟨c2, q2, hA, hEB⟩ := seg_append_inv hseg
  obtain ⟨ea, end0⟩ := e
  obtain ⟨hc2, hlke, hprve, hrestB⟩ := seg_cons_inv hEB
  rcases List.eq_nil_or_concat A with hA0 | ⟨A0, pp, hApp⟩
  · rw [hA0] at hAlen
    simp at hAlen
    omega
  rw [List.concat_eq_append] at hApp
  subst hApp
  obtain ⟨q0, hA0seg, hlkpp, hprvpp, hnxtpp, hq2pp⟩ := seg_last_decomp hA
  subst hq2pp
  have hndall : (addrs A0 ++ pp.1 :: ea :: addrs B).Nodup := by
    simpa [addrs, List.map_append, List.append_assoc] using hnd
  obtain ⟨hppe, hA0f, hBf⟩ := nodup_mid_facts hndall
  have hl0 : l.length ≠ 0 := by omega
  have hkeysnd : (keys l.heap).Nodup := hperm.nodup_iff.mpr hnd
  have hnd1 : (keys (herase l.heap ea)).Nodup :=
    hkeysnd.sublist (keys_herase_sublist _ _)
  have hlk1 : hlookup (herase l.heap ea) pp.1 = some pp.2 := by
    rw [hlookup_herase, if_neg hppe]
    exact hlkpp
  have hneu2 : hupdate (herase l.heap ea) pp.1
      (fun nd => { nd with next := end0.next }) ≠ none := by
    intro hnone
    rw [hupdate_eq_none] at hnone
    rw [hlk1] at hnone
    cases hnone
  obtain ⟨h2, hup2⟩ := Option.ne_none_iff_exists'.mp hneu2
  have hlook2 := hlookup_hupdate hup2
  have hmemkeys : ∀ x, x ∈ keys (herase l.heap ea) ↔
      (x ∈ addrs A0 ∨ x = pp.1 ∨ x ∈ addrs B) := by
    intro x
    rw [keys_herase, hperm.mem_iff]
    constructor
    · rintro ⟨hx1, hx2⟩
      have : x ∈ addrs A0 ++ pp.1 :: ea :: addrs B := by
        simpa [addrs, List.map_append, List.append_assoc] using hx1
      simp only [List.mem_append, List.mem_cons] at this
      rcases this with hh | hh | hh | hh
      · exact Or.inl hh
      · exact Or.inr (Or.inl hh)
      · exact absurd hh hx2
      · exact Or.inr (Or.inr hh)
    · intro hx
      have hxne : x ≠ ea := by
        rcases hx with hh | hh | hh
        · intro hh2
          subst hh2
          have hdisj := List.disjoint_of_nodup_append hndall
          exact hdisj hh (by simp)
        · intro hh2
          exact hppe (hh ▸ hh2)
        · intro hh2
          subst hh2
          have hr := hndall.of_append_right
          exact (List.nodup_cons.mp (List.nodup_cons.mp hr).2).1 hh
      refine ⟨?_, hxne⟩
      have : x ∈ addrs A0 ++ pp.1 :: ea :: addrs B := by
        simp only [List.mem_append, List.mem_cons]
        tauto
      simpa [addrs, List.map_append, List.append_assoc] using this
  cases hBcase : B with
  | nil =>
      subst hBcase
      obtain ⟨hnxe, hqe⟩ := seg_nil_inv hrestB
      have hrun := di_run_mid_last (l := l) (by omega)
        (by
          intro hh
          rcases hh with hh | hh
          · omega
          · rw [hh] at hhd; cases hhd)
        (by omega) hhd hwalk hlke (by simpa using hprve) hnxe.symm
        hup2 hl0
      refine ⟨_, _, hrun, ⟨A0 ++ [(pp.1, { pp.2 with next := none })],
        some pp.1, ?_, ?_, ?_, ?_, ?_, ?_, ?_, ?_⟩, rfl⟩
      · show Seg h2 none l.head none (some pp.1) _
        refine seg_append (seg_frame hA0seg ?_) (Seg.cons ?_ ?_ ?_)
        · intro x hx
          obtain ⟨hx1, hx2⟩ := hA0f x hx
          rw [hlook2 x.1, if_neg hx1, hlookup_herase, if_neg hx2]
        · rw [hlook2 pp.1, if_pos rfl, hlk1]
          rw [← hnxe]
          rfl
        · simpa using hprvpp
        · exact Seg.nil (some pp.1) none
      · have : (addrs (A0 ++ [pp])).Nodup := by
          have h0 := hndall
          rw [show addrs A0 ++ pp.1 :: ea :: addrs ([] : List (Nat × Node α)) =
            (addrs A0 ++ [pp.1]) ++ [ea] by simp [addrs]] at h0
          have := h0.of_append_left
          simpa [addrs, List.map_append] using this
        simpa [addrs, List.map_append] using this
      · show _ = l.length - 1
        simp only [List.length_append, List.length_cons, List.length_nil]
          at hlen ⊢
        omega
      · rw [keys_hupdate hup2]
        have hndA : (addrs (A0 ++ [(pp.1, { pp.2 with next := none })])).Nodup := by
          have h0 := hndall
          rw [show addrs A0 ++ pp.1 :: ea :: addrs ([] : List (Nat × Node α)) =
            (addrs A0 ++ [pp.1]) ++ [ea] by simp [addrs]] at h0
          have := h0.of_append_left
          simpa [addrs, List.map_append] using this
        refine (List.perm_ext_iff_of_nodup hnd1 hndA).mpr ?_
        intro x
        rw [hmemkeys]
        simp [addrs, List.map_append]
      · intro a ha
        show a < l.fresh
        refine hfr a ?_
        have hmem2 : a ∈ addrs A0 ∨ a = pp.1 := by
          simpa [addrs, List.map_append] using ha
        have h5 : a ∈ addrs A0 ++ pp.1 :: ea :: addrs ([] : List (Nat × Node α)) := by
          simp only [List.mem_append, List.mem_cons]
          tauto
        simpa [addrs, List.map_append, List.append_assoc] using h5
      · constructor
        · intro hh
          exact absurd (hiff.mp hh) hl0
        · intro hh
          show l.tail = none
          exfalso
          have hh2 : l.length - 1 = 0 := hh
          simp only [List.length_append, List.length_cons, List.length_nil]
            at hlen
          omega
      · intro t0 ht0
        exact htf t0 ht0
      · intro t0 ht0 hmem
        rw [keys_hupdate hup2] at hmem
        rw [hmemkeys] at hmem
        exfalso
        have hteq : t0 = ea := by
          have := htl t0 ht0 (by
            rw [hperm.mem_iff]
            have : t0 ∈ addrs A0 ++ pp.1 :: ea :: addrs ([] : List (Nat × Node α)) := by
              simp only [List.mem_append, List.mem_cons]
              tauto
            simpa [addrs, List.map_append, List.append_assoc] using this)
          rw [ht0] at this
          rw [hqe] at this
          simpa using this
        subst hteq
        rcases hmem with hh | hh | hh
        · have hdisj := List.disjoint_of_nodup_append hndall
          exact hdisj hh (by simp)
        · exact hppe hh.symm
        · simp [addrs] at hh
  | cons pr2 B2 =>
      subst hBcase
      obtain ⟨a2, nd2⟩ := pr2
      obtain ⟨hc3, hlk3, hprv3, hrestB2⟩ := seg_cons_inv hrestB
      have ha2ne : a2 ≠ pp.1 ∧ a2 ≠ ea := by
        have := hBf (a2, nd2) (List.mem_cons_self _ _)
        exact ⟨this.1, this.2⟩
      have hlk2a2 : hlookup h2 a2 = some nd2 := by
        rw [hlook2 a2, if_neg ha2ne.1, hlookup_herase, if_neg ha2ne.2]
        exact hlk3
      have hneu3 : hupdate h2 a2
          (fun nd => { nd with prev := some pp.1 }) ≠ none := by
        intro hnone
        rw [hupdate_eq_none] at hnone
        rw [hlk2a2] at hnone
        cases hnone
      obtain ⟨h3, hup3⟩ := Option.ne_none_iff_exists'.mp hneu3
      have hlook3 := hlookup_hupdate hup3
      have hrun := di_run_mid_step (l := l) (by omega)
        (by
          intro hh
          rcases hh with hh | hh
          · omega
          · rw [hh] at hhd; cases hhd)
        (by omega) hhd hwalk hlke (by simpa using hprve) hc3
        hup2 (by
          have hpv2 : end0.prev = some pp.1 := by simpa using hprve
          rw [hpv2]
          exact hup3) hl0
      refine ⟨_, _, hrun, ⟨A0 ++ (pp.1, { pp.2 with next := some a2 }) ::
        (a2, { nd2 with prev := some pp.1 }) :: B2, q,
        ?_, ?_, ?_, ?_, ?_, ?_, ?_, ?_⟩, rfl⟩
      · show Seg h3 none l.head none q _
        refine seg_append (seg_frame hA0seg ?_)
          (Seg.cons ?_ ?_ (Seg.cons ?_ rfl (seg_frame hrestB2 ?_)))
        · intro x hx
          obtain ⟨hx1, hx2⟩ := hA0f x hx
          have hxa2 : x.1 ≠ a2 := by
            intro hh
            have hdisj := List.disjoint_of_nodup_append hndall
            exact hdisj (mem_addrs_of_mem hx) (by simp [addrs, ← hh])
          rw [hlook3 x.1, if_neg hxa2, hlook2 x.1, if_neg hx1,
            hlookup_herase, if_neg hx2]
        · rw [hlook3 pp.1, if_neg (fun hh => ha2ne.1 hh.symm),
            hlook2 pp.1, if_pos rfl, hlk1, hc3]
          rfl
        · simpa using hprvpp
        · rw [hlook3 a2, if_pos rfl, hlk2a2]
          rfl
        · intro x hx
          have hxB : x ∈ (a2, nd2) :: B2 := List.mem_cons_of_mem _ hx
          obtain ⟨hx1, hx2⟩ := hBf x hxB
          have hxa2 : x.1 ≠ a2 := by
            intro hh
            have hr := hndall.of_append_right
            have hr2 := (List.nodup_cons.mp (List.nodup_cons.mp hr).2).2
            have : a2 ∉ addrs B2 := (List.nodup_cons.mp (by
              simpa [addrs] using hr2 :
                (a2 :: addrs B2).Nodup)).1
            exact this (hh ▸ mem_addrs_of_mem hx)
          rw [hlook3 x.1, if_neg hxa2, hlook2 x.1, if_neg hx1,
            hlookup_herase, if_neg hx2]
      · have hsub : (addrs (A0 ++ (pp.1, { pp.2 with next := some a2 }) ::
            (a2, { nd2 with prev := some pp.1 }) :: B2)) =
            addrs A0 ++ pp.1 :: a2 :: addrs B2 := by
          simp [addrs, List.map_append]
        rw [hsub]
        have h0 := hndall
        have h1 : (addrs A0 ++ pp.1 :: addrs ((a2, nd2) :: B2)).Nodup := by
          refine List.Nodup.sublist ?_ h0
          refine List.Sublist.append_left ?_ _
          refine List.Sublist.cons₂ _ ?_
          exact List.sublist_cons_self _ _
        simpa [addrs] using h1
      · show _ = l.length - 1
        simp only [List.length_append, List.length_cons, List.length_nil]
          at hlen ⊢
        omega
      · rw [keys_hupdate hup3, keys_hupdate hup2]
        have hndA : (addrs (A0 ++ (pp.1, { pp.2 with next := some a2 }) ::
            (a2, { nd2 with prev := some pp.1 }) :: B2)).Nodup := by
          have h1 : (addrs A0 ++ pp.1 :: addrs ((a2, nd2) :: B2)).Nodup := by
            refine List.Nodup.sublist ?_ hndall
            refine List.Sublist.append_left ?_ _
            refine List.Sublist.cons₂ _ ?_
            exact List.sublist_cons_self _ _
          simpa [addrs, List.map_append] using h1
        refine (List.perm_ext_iff_of_nodup hnd1 hndA).mpr ?_
        intro x
        rw [hmemkeys]
        simp [addrs, List.map_append]
      · intro a ha
        show a < l.fresh
        refine hfr a ?_
        have : a ∈ addrs A0 ∨ a = pp.1 ∨ a ∈ addrs ((a2, nd2) :: B2) := by
          have h0 : a ∈ addrs A0 ++ pp.1 :: a2 :: addrs B2 := by
            simpa [addrs, List.map_append] using ha
          simp only [List.mem_append, List.mem_cons] at h0
          simp only [addrs, List.map_cons, List.mem_cons]
          tauto
        have h5 : a ∈ addrs A0 ++ pp.1 :: ea :: addrs ((a2, nd2) :: B2) := by
          simp only [List.mem_append, List.mem_cons]
          rcases this with hh | hh | hh
          · exact Or.inl hh
          · exact Or.inr (Or.inl hh)
          · exact Or.inr (Or.inr (Or.inr hh))
        simpa [addrs, List.map_append, List.append_assoc] using h5
      · constructor
        · intro hh
          exact absurd (hiff.mp hh) hl0
        · intro hh
          show l.tail = none
          exfalso
          have hh2 : l.length - 1 = 0 := hh
          simp only [List.length_append, List.length_cons, List.length_nil]
            at hlen
          omega
      · intro t0 ht0
        exact htf t0 ht0
      · intro t0 ht0 hmem
        rw [keys_hupdate hup3, keys_hupdate hup2] at hmem
        rw [hmemkeys] at hmem
        refine htl t0 ht0 ?_
        rw [hperm.mem_iff]
        have h5 : t0 ∈ addrs A0 ++ pp.1 :: ea :: addrs ((a2, nd2) :: B2) := by
          simp only [List.mem_append, List.mem_cons]
          rcases hmem with hh | hh | hh
          · exact Or.inl hh
          · exact Or.inr (Or.inl hh)
          · exact Or.inr (Or.inr (Or.inr (by simpa [addrs] using hh)))
        simpa [addrs, List.map_append, List.append_assoc] using h5

theorem out_ok_inj {σ β : Type u} {s1 s2 : σ} {b1 b2 : β}
    (h : (Out.ok s1 b1 : Out σ β) = Out.ok s2 b2) : s1 = s2 ∧ b1 = b2 := by
  cases h
  exact ⟨rfl, rfl⟩

theorem iat_run_stuck {l : LinkedList α} {t0 : Nat} (v : α)
    (htl : l.tail = some t0) (hlk : hlookup l.heap t0 = none)
    (hne : t0 ≠ l.fresh) : insert_at_tail l v = .stuck := by
  have hlkc : hlookup ((l.fresh, (⟨v, none, some t0⟩ : Node α)) :: l.heap) t0
      = none := by
    simp only [hlookup]
    rw [if_neg (by omega : ¬ l.fresh = t0)]
    exact hlk
  have hnone : hupdate ((l.fresh, (⟨v, none, some t0⟩ : Node α)) :: l.heap) t0
      (fun nd => { nd with next := some l.fresh }) = none := by
    rw [hupdate_eq_none]
    exact hlkc
  simp [insert_at_tail, htl, hinsert, hnone]

theorem dt_run_stuck {l : LinkedList α} {t0 : Nat}
    (htl : l.tail = some t0) (hlk : hlookup l.heap t0 = none) :
    delete_tail l = .stuck := by
  simp [delete_tail, htl, hlk]

theorem wfpC_tail_eq_q_of_not_dangling {l : LinkedList α}
    {ns : List (Nat × Node α)} {q : Option Nat} (hw : WfpC l ns q)
    (hnd : ∀ t0, l.tail = some t0 → (hlookup l.heap t0).isSome) :
    l.tail = q := by
  obtain ⟨hseg, _, hlen, hperm, hfr, hiff, htf, htl⟩ := hw
  cases htle : l.tail with
  | none =>
      have hl0 : l.length = 0 := hiff.mp htle
      have hns : ns = [] := by
        cases ns with
        | nil => rfl
        | cons pr t => simp [← hlen] at hl0
      subst hns
      exact ((seg_nil_inv hseg).2).symm
  | some t0 =>
      have hmem : t0 ∈ keys l.heap := by
        rw [← hlookup_isSome_iff_mem_keys]
        exact hnd t0 htle
      rw [← htle]
      exact htl t0 htle hmem

theorem iah_wfp {l l' : LinkedList α} {v : α} {u : PUnit}
    (hw : Wfp l) (hok : insert_at_head l v = .ok l' u) : Wfp l' := by
  obtain ⟨ns, q, hwc⟩ := hw
  obtain ⟨l2, hrun, hwf2⟩ := iah_char hwc v
  rw [hrun] at hok
  obtain ⟨heq, _⟩ := out_ok_inj hok
  rwa [← heq]

theorem iat_wfp {l l' : LinkedList α} {v : α} {u : PUnit}
    (hw : Wfp l) (hok : insert_at_tail l v = .ok l' u) : Wfp l' := by
  obtain ⟨ns, q, hwc⟩ := hw
  by_cases hdangle : ∀ t0, l.tail = some t0 → (hlookup l.heap t0).isSome
  · have hq := wfpC_tail_eq_q_of_not_dangling hwc hdangle
    obtain ⟨l2, ns2, hrun, hwf2, _⟩ := iat_core hwc hq v
    rw [hrun] at hok
    obtain ⟨heq, _⟩ := out_ok_inj hok
    rw [← heq]
    exact ⟨ns2, l2.tail, wfC_wfpC hwf2⟩
  · push_neg at hdangle
    obtain ⟨t0, htle, hlk⟩ := hdangle
    have hlk2 : hlookup l.heap t0 = none := by
      cases hh : hlookup l.heap t0 with
      | none => rfl
      | some nd => rw [hh] at hlk; simp at hlk
    have hne : t0 ≠ l.fresh := by
      have := hwc.2.2.2.2.2.2.1 t0 htle
      omega
    rw [iat_run_stuck v htle hlk2 hne] at hok
    cases hok

theorem dh_wfp {l l' : LinkedList α} {r : Option α}
    (hw : Wfp l) (hok : delete_head l = .ok l' r) : Wfp l' := by
  obtain ⟨ns, q, hwc⟩ := hw
  obtain ⟨l2, r2, hrun, hwf2⟩ := dh_char hwc
  rw [hrun] at hok
  obtain ⟨heq, _⟩ := out_ok_inj hok
  rwa [← heq]

theorem dt_wfp {l l' : LinkedList α} {r : Option α}
    (hw : Wfp l) (hok : delete_tail l = .ok l' r) : Wfp l' := by
  obtain ⟨ns, q, hwc⟩ := hw
  by_cases hdangle : ∀ t0, l.tail = some t0 → (hlookup l.heap t0).isSome
  · have hq := wfpC_tail_eq_q_of_not_dangling hwc hdangle
    rcases dt_core hwc hq with ⟨hns, hrun⟩ | ⟨ms, pr, l2, hns, hrun, ⟨ns2, hwf2, _⟩, _⟩
    · rw [hrun] at hok
      obtain ⟨heq, _⟩ := out_ok_inj hok
      rw [← heq]
      exact ⟨ns, q, hwc⟩
    · rw [hrun] at hok
      obtain ⟨heq, _⟩ := out_ok_inj hok
      rw [← heq]
      exact ⟨ns2, l2.tail, wfC_wfpC hwf2⟩
  · push_neg at hdangle
    obtain ⟨t0, htle, hlk⟩ := hdangle
    have hlk2 : hlookup l.heap t0 = none := by
      cases hh : hlookup l.heap t0 with
      | none => rfl
      | some nd => rw [hh] at hlk; simp at hlk
    rw [dt_run_stuck htle hlk2] at hok
    cases hok

theorem iai_wfp {l l' : LinkedList α} {i : Nat} {v : α} {u : PUnit}
    (hw : Wfp l) (hok : insert_at_ith l i v = .ok l' u) : Wfp l' := by
  obtain ⟨ns, q, hwc⟩ := hw
  by_cases h1 : l.length < i
  · rw [insert_at_ith, if_pos h1] at hok
    cases hok
  by_cases h2 : i = 0 ∨ l.head = none
  · rw [iai_run_zero v h1 h2] at hok
    exact iah_wfp ⟨ns, q, hwc⟩ hok
  by_cases h3 : l.length = i
  · rw [iai_run_len v h1 h2 h3] at hok
    exact iat_wfp ⟨ns, q, hwc⟩ hok
  · have hi1 : 1 ≤ i := by
      rcases Nat.eq_zero_or_pos i with hh | hh
      · exact absurd (Or.inl hh) h2
      · exact hh
    obtain ⟨l2, hrun, hwf2, _⟩ := iai_mid_char hwc v hi1 (by omega)
    rw [hrun] at hok
    obtain ⟨heq, _⟩ := out_ok_inj hok
    rwa [← heq]

theorem di_wfp {l l' : LinkedList α} {i : Nat} {r : Option α}
    (hw : Wfp l) (hok : delete_ith l i = .ok l' r) : Wfp l' := by
  obtain ⟨ns, q, hwc⟩ := hw
  by_cases h1 : l.length < i
  · rw [delete_ith, if_pos h1] at hok
    cases hok
  by_cases h2 : i = 0 ∨ l.head = none
  · rw [di_run_zero h1 h2] at hok
    exact dh_wfp ⟨ns, q, hwc⟩ hok
  by_cases h3 : l.length = i
  · rw [di_run_len h1 h2 h3] at hok
    exact dt_wfp ⟨ns, q, hwc⟩ hok
  · have hi1 : 1 ≤ i := by
      rcases Nat.eq_zero_or_pos i with hh | hh
      · exact absurd (Or.inl hh) h2
      · exact hh
    obtain ⟨l2, r2, hrun, hwf2, _⟩ := di_mid_char hwc hi1 (by omega)
    rw [hrun] at hok
    obtain ⟨heq, _⟩ := out_ok_inj hok
    rwa [← heq]

/-- Every state reachable from the empty list by the public operations
satisfies the partial well-formedness invariant. -/
theorem reach_wfp {l : LinkedList α} (h : Reach l) : Wfp l := by
  induction h with
  | empty => exact ⟨[], none, wfp_new⟩
  | iah _ hok ih => exact iah_wfp ih hok
  | iat _ hok ih => exact iat_wfp ih hok
  | iai _ hok ih => exact iai_wfp ih hok
  | dh _ hok ih => exact dh_wfp ih hok
  | dt _ hok ih => exact dt_wfp ih hok
  | di _ hok ih => exact di_wfp ih hok

/-! ### Support lemmas for the claims -/

theorem reach_sOne : Reach sOne :=
  Reach.iat (v := 1) Reach.empty rfl

theorem reach_sTwo : Reach sTwo :=
  Reach.iat (v := 2) reach_sOne rfl

theorem reach_sBug : Reach sBug :=
  Reach.di (i := 1) reach_sTwo rfl

theorem reach_c2s0 : Reach c2s0 :=
  Reach.iat (v := 5) Reach.empty rfl

theorem wf_sOne : Wf sOne := by
  refine ⟨[(0, ⟨1, none, none⟩)], Seg.cons rfl rfl (Seg.nil (some 0) none),
    ?_, ?_, ?_, ?_⟩ <;> simp [addrs, keys, sOne]

theorem runInserts_wfC {l : LinkedList α} {ns : List (Nat × Node α)}
    (hw : WfC l ns) (vs : List α) :
    ∃ l2 ns2, runInserts l vs = .ok l2 ⟨⟩ ∧ WfC l2 ns2 ∧
      vals ns2 = vals ns ++ vs := by
  induction vs generalizing l ns with
  | nil => exact ⟨l, ns, rfl, hw, by simp⟩
  | cons v vs ih =>
      obtain ⟨l2, ns2, hrun2, hwf2, hvals2, _⟩ :=
        iat_core (wfC_wfpC hw) rfl v
      obtain ⟨l3, ns3, hrun3, hwf3, hvals3⟩ := ih hwf2
      refine ⟨l3, ns3, ?_, hwf3, ?_⟩
      · rw [runInserts, hrun2]
        exact hrun3
      · rw [hvals3, hvals2]
        simp

theorem wfC_new : WfC (LinkedList.new (α := α)) [] := by
  refine ⟨Seg.nil none none, ?_, ?_, ?_, ?_⟩ <;>
    simp [LinkedList.new, addrs, keys]

theorem queue_fifo_invariant (ops : List (QOp α)) (q : Queue α) :
    ((runQ q ops).2.filterMap id) ++ (runQ q ops).1.elements
      = q.elements ++ enqs ops := by
  induction ops generalizing q with
  | nil => simp [runQ, enqs]
  | cons op ops ih =>
      cases op with
      | enq v =>
          rw [runQ, enqs]
          rw [ih (enqueue q v)]
          simp [enqueue]
      | deq =>
          rw [runQ, enqs]
          cases hq : q.elements with
          | nil =>
              have hdq : dequeue q = (q, none) := by
                simp [dequeue, hq]
              cases hrun : runQ q ops with
              | mk q3 rs =>
                  simp only [hdq, hrun]
                  have hih := ih q
                  rw [hrun, hq] at hih
                  simpa using hih
          | cons x xs =>
              have hdq : dequeue q = (⟨xs⟩, some x) := by
                simp [dequeue, hq]
              cases hrun : runQ (⟨xs⟩ : Queue α) ops with
              | mk q3 rs =>
                  simp only [hdq, hrun]
                  have hih := ih ⟨xs⟩
                  rw [hrun] at hih
                  simp only [List.filterMap_cons, id_eq, List.cons_append]
                  rw [hih]

/-! ### The claims -/

/-- C1: the claim says every public operation preserves the structural
invariants (`length = 0` iff `head` empty iff `tail` empty; walking forward
from `head` `length` times reaches `tail` then empty; walking backward from
`tail` reaches `head`) on every state reachable from the empty list.  The
code violates it: from the empty list, `insert_at_tail 1`,
`insert_at_tail 2`, then `delete_ith 1` reach the state `sBug`, whose
one-node chain ends at address 0 while `tail` still holds the freed address
1 — the splice branch of `delete_ith` never updates `tail` — so no
well-formed chain matches the state (`¬ Wf sBug`). -/
theorem c1_delete_ith_breaks_tail_invariant :
    Reach sBug ∧
    insert_at_tail sOne 2 = .ok sTwo ⟨⟩ ∧
    delete_ith sTwo 1 = .ok sBug (some 2) ∧
    sBug.length = 1 ∧ sBug.head = some 0 ∧ sBug.tail = some 1 ∧
    hlookup sBug.heap 1 = none ∧ ¬ Wf sBug := by
  refine ⟨reach_sBug, rfl, rfl, rfl, rfl, rfl, rfl, ?_⟩
  rintro ⟨ns, hseg, hnd, hlen, hperm, hfr⟩
  rcases seg_last hseg with ⟨hnil, hq, _⟩ | ⟨ms, pr, hns, hq⟩
  · have h0 : (some 1 : Option Nat) = none := hq
    cases h0
  · have hpr1 : pr.1 = 1 := by
      have h0 : (some 1 : Option Nat) = some pr.1 := hq
      simpa using h0.symm
    have h1 : (1 : Nat) ∈ addrs ns := by
      subst hns
      rw [← hpr1]
      simp [addrs]
    have h2 : (1 : Nat) ∈ keys sBug.heap := hperm.mem_iff.mpr h1
    simp [keys, sBug] at h2

/-- C2: the claim says inserting at any index `i ≤ length` and then deleting
at `i` restores the previous state.  It fails at `i = length` on any
non-empty list: on the reachable one-element list `c2s0` (the list `[5]`),
`insert_at_ith 1 9` then `delete_ith 1` restores length, head and heap, but
leaves `tail` holding the freed address 1 instead of the original address 0,
because the splice branch of `delete_ith` does not update `tail`. -/
theorem c2_roundtrip_fails_at_length :
    Reach c2s0 ∧ 1 ≤ c2s0.length ∧
    insert_at_ith c2s0 1 9 = .ok c2s1 ⟨⟩ ∧
    delete_ith c2s1 1 = .ok c2s2 (some 9) ∧
    c2s2.length = c2s0.length ∧ c2s2.head = c2s0.head ∧
    c2s2.heap = c2s0.heap ∧ c2s0.tail = some 0 ∧ c2s2.tail = some 1 ∧
    c2s2.tail ≠ c2s0.tail := by
  refine ⟨reach_c2s0, ?_, rfl, rfl, rfl, rfl, rfl, rfl, rfl, ?_⟩
  · decide
  · decide

/-- C3: the claim says every insert/delete either completes all its link
updates (head, tail, prev/next, length) or performs none.  `delete_ith` at
position `length - 1` (here `delete_ith 1` on the two-element list `c2s1`)
returns normally having decremented `length` and cleared the predecessor's
`next` link, yet left `tail` un-updated, still holding the freed address 1 —
an observable partially-updated state. -/
theorem c3_partial_update_observable :
    insert_at_ith c2s0 1 9 = .ok c2s1 ⟨⟩ ∧
    delete_ith c2s1 1 = .ok c2s2 (some 9) ∧
    c2s2.length = c2s1.length - 1 ∧
    hlookup c2s2.heap 0 = some ⟨5, none, none⟩ ∧
    c2s1.tail = some 1 ∧ c2s2.tail = some 1 ∧
    hlookup c2s2.heap 1 = none := by
  exact ⟨rfl, rfl, rfl, rfl, rfl, rfl, rfl⟩

/-- C5: the claim says that on every reachable state `insert_at_ith` and
`delete_ith` panic exactly when `index > length` and complete normally for
`index ≤ length`.  On the reachable state `sBug` (reached by
`insert_at_tail 1`, `insert_at_tail 2`, `delete_ith 1`), calling
`delete_ith 1` with `1 ≤ length` neither completes normally nor panics: it
routes to `delete_tail`, which frees the already-freed stale `tail` pointer
— undefined behaviour, `stuck` in the model. -/
theorem c5_panic_iff_fails_on_reachable_state :
    Reach sBug ∧ 1 ≤ sBug.length ∧
    delete_ith sBug 1 = .stuck ∧
    (∀ (l2 : LinkedList Nat) (r : Option Nat), delete_ith sBug 1 ≠ .ok l2 r) ∧
    delete_ith sBug 1 ≠ .panic := by
  refine ⟨reach_sBug, by decide, rfl, ?_, by decide⟩
  intro l2 r h
  rw [show delete_ith sBug 1 = .stuck from rfl] at h
  cases h

theorem getElem_concat_pair (ms : List (Nat × Node α)) (pr : Nat × Node α)
    (i : Nat) (hi : i < (ms ++ [pr]).length) (heq : i = ms.length) :
    (ms ++ [pr])[i] = pr := by
  subst heq
  rw [List.getElem_append_right (by omega)]
  simp

/-- C4: on every well-formed non-empty list of length `N`, `delete_ith N`
routes to `delete_tail` and does not fail: it returns the value at
position `N - 1` and removes that node (length drops by one, the result is
well formed).  Every index `i ≤ N` completes normally and only indices
strictly greater than `N` panic. -/
theorem c4_delete_ith_at_length {l : LinkedList Nat} (hw : Wf l)
    (hn : 1 ≤ l.length) :
    delete_ith l l.length = delete_tail l ∧
    (∃ l2 v, delete_tail l = .ok l2 (some v) ∧
      get l ((l.length : Int) - 1) = some (some v) ∧
      l2.length = l.length - 1 ∧ Wf l2) ∧
    (∀ i : Nat, i ≤ l.length → ∃ l2 r, delete_ith l i = .ok l2 r) ∧
    (∀ i : Nat, l.length < i → delete_ith l i = .panic) := by
  obtain ⟨ns, hwC⟩ := hw
  have hwc := wfC_wfpC hwC
  have hlen := hwc.2.2.1
  have hhd : l.head ≠ none := by
    cases ns with
    | nil =>
        rw [← hlen] at hn
        simp at hn
    | cons pr t =>
        obtain ⟨pa, pnd⟩ := pr
        obtain ⟨hc, _⟩ := seg_cons_inv hwc.1
        rw [hc]
        simp
  have hrunlen : delete_ith l l.length = delete_tail l := by
    refine di_run_len (by omega) ?_ rfl
    intro hh
    rcases hh with hh | hh
    · omega
    · exact hhd hh
  rcases dt_core hwc rfl with ⟨hns, _⟩ |
    ⟨ms, pr, l2, hns, hrun, ⟨ns2, hwf2, _⟩, hlen2⟩
  · subst hns
    rw [← hlen] at hn
    simp at hn
  · refine ⟨hrunlen, ⟨l2, pr.2.val, hrun, ?_, hlen2, ⟨ns2, hwf2⟩⟩, ?_, ?_⟩
    · have hih : l.length - 1 < ns.length := by omega
      have hget := get_in_range_wfpC hwc (l.length - 1) hih
      have hcast : (((l.length - 1 : Nat)) : Int) = (l.length : Int) - 1 := by
        omega
      rw [hcast] at hget
      rw [hget]
      have hidx : l.length - 1 = ms.length := by
        subst hns
        simp only [List.length_append, List.length_cons, List.length_nil]
          at hlen
        omega
      have hre : ns[l.length - 1] = pr := by
        subst hns
        exact getElem_concat_pair ms pr _ _ hidx
      rw [hre]
    · intro i hile
      rcases Nat.eq_zero_or_pos i with rfl | hipos
      · obtain ⟨l3, r3, hrun3, _⟩ := dh_char hwc
        rw [di_run_zero (by omega) (Or.inl rfl)]
        exact ⟨l3, r3, hrun3⟩
      rcases Nat.lt_or_ge i l.length with hilt | hige
      · obtain ⟨l3, r3, hrun3, _⟩ := di_mid_char hwc (by omega) hilt
        exact ⟨l3, r3, hrun3⟩
      · have hieq : i = l.length := by omega
        subst hieq
        rw [hrunlen]
        exact ⟨l2, some pr.2.val, hrun⟩
    · intro i higt
      rw [delete_ith, if_pos higt]

theorem c4_witness :
    delete_ith sOne sOne.length = delete_tail sOne ∧
    (∃ l2 v, delete_tail sOne = .ok l2 (some v) ∧
      get sOne ((sOne.length : Int) - 1) = some (some v) ∧
      l2.length = sOne.length - 1 ∧ Wf l2) :=
  ⟨(c4_delete_ith_at_length wf_sOne (by decide)).1,
   (c4_delete_ith_at_length wf_sOne (by decide)).2.1⟩

/-- C6: for every sequence of values inserted by `insert_at_tail` into an
initially empty list, `get i` returns the `i`-th inserted value for every
`i < length`. -/
theorem c6_get_returns_ith_inserted (vs : List Nat) (l : LinkedList Nat)
    (i : Nat) (hrun : runInserts LinkedList.new vs = .ok l ⟨⟩)
    (hi : i < vs.length) : get l (i : Int) = some (some vs[i]) := by
  obtain ⟨l2, ns2, hrun2, hwf2, hvals2⟩ := runInserts_wfC wfC_new vs
  rw [hrun2] at hrun
  obtain ⟨heq, _⟩ := out_ok_inj hrun
  subst heq
  have h2 : vals ns2 = vs := by simpa using hvals2
  subst h2
  have hilen : i < ns2.length := by simpa [vals] using hi
  have hget := get_in_range_wfpC (wfC_wfpC hwf2) i hilen
  rw [hget]
  simp [vals]

theorem c6_witness :
    runInserts LinkedList.new [10, 20, 30] = .ok c6s ⟨⟩ ∧
    get c6s 1 = some (some 20) :=
  ⟨rfl, c6_get_returns_ith_inserted [10, 20, 30] c6s 1 rfl (by decide)⟩

/-- C7: on every reachable list state, `insert_at_ith 0 v` is the same
computation as `insert_at_head v`, and `insert_at_ith length v` is the same
computation as `insert_at_tail v`. -/
theorem c7_insert_at_ith_endpoints {l : LinkedList Nat} (v : Nat)
    (hr : Reach l) :
    insert_at_ith l 0 v = insert_at_head l v ∧
    insert_at_ith l l.length v = insert_at_tail l v := by
  obtain ⟨ns, q, hwc⟩ := reach_wfp hr
  obtain ⟨hseg, hnd, hlen, hperm, hfr, hiff, htf, htl⟩ := hwc
  refine ⟨iai_run_zero v (by omega) (Or.inl rfl), ?_⟩
  cases hlen0 : l.length with
  | zero =>
      have hns : ns = [] := by
        cases ns with
        | nil => rfl
        | cons pr t =>
            rw [← hlen] at hlen0
            simp at hlen0
      subst hns
      have hhd : l.head = none := (seg_nil_inv hseg).1.symm
      have htle : l.tail = none := hiff.mpr hlen0
      rw [show insert_at_ith l 0 v = insert_at_head l v from
        iai_run_zero v (by omega) (Or.inl rfl)]
      rw [iah_run_none v hhd, iat_run_none v htle]
  | succ n =>
      have hhd : l.head ≠ none := by
        cases ns with
        | nil =>
            rw [← hlen] at hlen0
            simp at hlen0
        | cons pr t =>
            obtain ⟨pa, pnd⟩ := pr
            obtain ⟨hc, _⟩ := seg_cons_inv hseg
            rw [hc]
            simp
      refine iai_run_len v (by omega) ?_ hlen0
      intro hh
      rcases hh with hh | hh
      · omega
      · exact hhd hh

theorem c7_witness :
    insert_at_ith sOne 0 5 = insert_at_head sOne 5 ∧
    insert_at_ith sOne 1 5 = insert_at_tail sOne 5 :=
  c7_insert_at_ith_endpoints 5 reach_sOne

/-- C8: on every reachable list state, `get index` returns no value when
`index` is negative or at least `length`.  In the embedding `get` consumes
only the state and produces a value, so it cannot mutate the list: it is
read-only by construction. -/
theorem c8_get_out_of_range {l : LinkedList Nat} (i : Int) (hr : Reach l)
    (hi : i < 0 ∨ (l.length : Int) ≤ i) : get l i = some none := by
  obtain ⟨ns, q, hwc⟩ := reach_wfp hr
  exact get_out_range_wfpC hwc i hi

theorem c8_witness :
    get sOne 5 = some none ∧ get sOne (-1) = some none :=
  ⟨c8_get_out_of_range 5 reach_sOne (by decide),
   c8_get_out_of_range (-1) reach_sOne (by decide)⟩

/-- C9: the queue is strictly FIFO: over any request sequence the dequeued
values (in order) followed by the remaining elements are exactly the
enqueued values in order; dequeue and the peeks return no value exactly on
the empty queue; and the concrete scenario enqueue 1, enqueue 2 gives
dequeue = 1, then peek_front = 2 and len = 1. -/
theorem c9_queue_strict_fifo :
    (∀ (ops : List (QOp Nat)) (q : Queue Nat),
      ((runQ q ops).2.filterMap id) ++ (runQ q ops).1.elements
        = q.elements ++ enqs ops) ∧
    (∀ q : Queue Nat, (dequeue q).2 = none ↔ q.is_empty) ∧
    (∀ q : Queue Nat, peek_front q = none ↔ q.is_empty) ∧
    (∀ q : Queue Nat, peek_back q = none ↔ q.is_empty) ∧
    (dequeue (enqueue (enqueue Queue.new 1) 2)).2 = some 1 ∧
    peek_front (dequeue (enqueue (enqueue Queue.new 1) 2)).1 = some 2 ∧
    Queue.len (dequeue (enqueue (enqueue Queue.new 1) 2)).1 = 1 := by
  refine ⟨queue_fifo_invariant, ?_, ?_, ?_, rfl, rfl, rfl⟩
  · intro q
    cases hq : q.elements with
    | nil => simp [dequeue, hq, Queue.is_empty]
    | cons x xs => simp [dequeue, hq, Queue.is_empty]
  · intro q
    cases hq : q.elements with
    | nil => simp [peek_front, hq, Queue.is_empty]
    | cons x xs => simp [peek_front, hq, Queue.is_empty]
  · intro q
    cases hq : q.elements with
    | nil => simp [peek_back, hq, Queue.is_empty]
    | cons x xs => simp [peek_back, hq, Queue.is_empty]

/-- C10: on every reachable state, once the middle branch of
`insert_at_ith` or `delete_ith` is taken (the initial bound check passed,
not routed to the head or tail branch), the traversal loop always finds a
present `next` link: the walk succeeds and both operations return
normally, so the secondary panic in the loop is unreachable. -/
theorem c10_inner_panic_unreachable {l : LinkedList Nat} (i v : Nat)
    (hr : Reach l) (hle : i ≤ l.length) (h0 : i ≠ 0) (hhd : l.head ≠ none)
    (hne : i ≠ l.length) :
    (∀ hd, l.head = some hd → ∃ a, walk l.heap hd i = .ok a ⟨⟩) ∧
    (∃ l2, insert_at_ith l i v = .ok l2 ⟨⟩) ∧
    (∃ l2 r, delete_ith l i = .ok l2 r) := by
  obtain ⟨ns, q, hwc⟩ := reach_wfp hr
  have hlt : i < l.length := by omega
  have hilen : i < ns.length := by
    have := hwc.2.2.1
    omega
  refine ⟨?_, ?_, ?_⟩
  · intro hd hhd2
    obtain ⟨a0, hhd3, hwalk⟩ := seg_walk i hwc.1 hilen
    rw [hhd2] at hhd3
    have hda : hd = a0 := by
      injection hhd3
    subst hda
    exact ⟨_, hwalk⟩
  · obtain ⟨l2, hrun, _⟩ := iai_mid_char hwc v (by omega) hlt
    exact ⟨l2, hrun⟩
  · obtain ⟨l2, r, hrun, _⟩ := di_mid_char hwc (by omega) hlt
    exact ⟨l2, r, hrun⟩

theorem c10_witness :
    (∃ l2, insert_at_ith sTwo 1 7 = .ok l2 ⟨⟩) ∧
    (∃ l2 r, delete_ith sTwo 1 = .ok l2 r) :=
  ⟨(c10_inner_panic_unreachable 1 7 reach_sTwo (by decide) (by decide)
      (by decide) (by decide)).2.1,
   (c10_inner_panic_unreachable 1 7 reach_sTwo (by decide) (by decide)
      (by decide) (by decide)).2.2⟩

end RsCS
